import Mathlib

/-!
Verification development for the `create-bucket-cms` installer.

The repository ships two observed variants of its two JS modules:
`src/util.js` and `src/index.js` each contain an earlier variant (the first
block) and a later variant (the second block; the later `index.js` variant is
embedded in `src/README.md` and adds auth-adapter selection, and the later
`util.js` variant adds `checkLicenseStatus` and a fifth environment prompt).
Definitions below are shallow embeddings of those sources:

* strings are Lean `String`s (logically lists of `Char`); JS regex replaces
  in `slugify` are implemented as explicit character-list transformations;
* the filesystem seen by `getAppDirectoryPath` (util.js) is a finite tree of
  named entries (`FSEntry`), with `readdir` returning children in the order
  of the child list; paths are lists of path components (`path.join a b`
  becomes list append);
* the filesystem mutated by the orchestrator is a finite map from paths to
  file data plus a set of directories (`FS`), and orchestrator runs record a
  trace of filesystem events;
* JS `undefined` function arguments are modelled with `Option`, and thrown
  exceptions with `Except` (a `TypeError` is what `path.join(undefined, _)`
  raises in Node).
-/

set_option maxHeartbeats 1600000

namespace CreateBucketCMS

/-! ## Path components

A JS path string is modelled as its list of path components; `path.join`
of a directory and a name appends one component, and `path.join` of two
paths concatenates the component lists (Node's `path.join` concatenates its
segments; none of the paths in this program contain `..` segments, so no
normalisation is needed). -/

abbrev Path := List String

/-! ## slugify (src/util.js lines 111-120)

`slugify` lowercases the string and then performs four regex replaces:
whitespace runs to a single hyphen, removal of characters outside
`[A-Za-z0-9_-]`, collapsing of hyphen runs, and trimming of leading and
trailing hyphens.  Each stage is implemented on the character list, with
character classes stated on code points (`Char.toNat`). -/

/-- ASCII uppercase letters (code points 65-90), the range JS
`toLowerCase` maps on ASCII input. -/
def isUpperAscii (c : Char) : Bool := 65 ≤ c.toNat && c.toNat ≤ 90

/-- JS `toLowerCase` on the ASCII range: map codes 65-90 to codes 97-122
and leave everything else unchanged.  Special Unicode case mappings (which
can change string length) are outside the model; the characters they touch
are not in `\w` and are removed by the `[^\w-]+` stage both here and in
JS. -/
def jsToLower (c : Char) : Char :=
  if isUpperAscii c then Char.ofNat (c.toNat + 32) else c

/-- Characters matched by the JS regex class `\s`, by code point: tab,
line feed, vertical tab, form feed, carriage return, space, no-break
space (the remaining Unicode space characters behave identically for
every property proved here: they are not word characters and not
hyphens). -/
def isJsSpace (c : Char) : Bool :=
  c.toNat = 32 || c.toNat = 9 || c.toNat = 10 || c.toNat = 11 || c.toNat = 12 ||
    c.toNat = 13 || c.toNat = 160

/-- Characters matched by the JS regex class `\w`: ASCII letters, digits
and underscore (code 95). -/
def isWordChar (c : Char) : Bool :=
  (65 ≤ c.toNat && c.toNat ≤ 90) || (97 ≤ c.toNat && c.toNat ≤ 122) ||
    (48 ≤ c.toNat && c.toNat ≤ 57) || c.toNat = 95

/-- The hyphen character (code 45). -/
def isHyphen (c : Char) : Bool := c.toNat = 45

/-- Replace every maximal run of characters satisfying `p` by `rep`
(the flag records whether we are inside a run).  With `rep = ['-']` and
`p = isJsSpace` this is the JS replace `/\s+/g → "-"`; with `p = isHyphen`
and `rep = ['-']` it is `/\-\-+/g → "-"` (a run of length one is mapped to
itself, so replacing only runs of length at least two has the same effect
as collapsing every run). -/
def squashRuns (p : Char → Bool) (rep : List Char) : Bool → List Char → List Char
  | _, [] => []
  | inRun, c :: cs =>
    if p c then
      (if inRun then squashRuns p rep true cs else rep ++ squashRuns p rep true cs)
    else c :: squashRuns p rep false cs

/-- Remove the maximal trailing run of characters satisfying `p`
(the JS replace of the regex `-+$` by the empty string, with
`p = isHyphen`). -/
def dropTrailing (p : Char → Bool) : List Char → List Char
  | [] => []
  | c :: cs =>
    match dropTrailing p cs with
    | [] => if p c then [] else [c]
    | l => c :: l

/-- The character-list pipeline of `slugify`. -/
def slugifyL (l : List Char) : List Char :=
  let s1 := l.map jsToLower
  let s2 := squashRuns isJsSpace ['-'] false s1
  let s3 := s2.filter (fun c => isWordChar c || isHyphen c)
  let s4 := squashRuns isHyphen ['-'] false s3
  let s5 := s4.dropWhile isHyphen
  dropTrailing isHyphen s5

/-- `slugify` from src/util.js (both variants are identical). -/
def slugify (s : String) : String := ⟨slugifyL s.data⟩

/-- Characters that can appear in a slug: word characters that are not
ASCII uppercase, and the hyphen. -/
def isSlugChar (c : Char) : Bool := (isWordChar c && !isUpperAscii c) || isHyphen c

/-- No two adjacent hyphens. -/
def noDoubleHyphen : List Char → Bool
  | [] => true
  | [_] => true
  | c :: d :: rest => !(isHyphen c && isHyphen d) && noDoubleHyphen (d :: rest)

/-- Is the first character a hyphen? -/
def headIsHyphen (l : List Char) : Bool :=
  match l.head? with
  | some c => isHyphen c
  | none => false

/-- Is the last character a hyphen? -/
def lastIsHyphen (l : List Char) : Bool :=
  match l.getLast? with
  | some c => isHyphen c
  | none => false

/-- The image characterisation of `slugifyL`: only slug characters, no
hyphen runs, no leading or trailing hyphen. -/
def isSlugList (l : List Char) : Bool :=
  l.all isSlugChar && noDoubleHyphen l && !headIsHyphen l && !lastIsHyphen l

/-! ## Directory trees and getAppDirectoryPath (src/util.js lines 78-98)

`getAppDirectoryPath` keeps a work-list of directory paths (a JS array used
as a stack: `push` appends, `pop` removes the last element).  It pops one
path, lists its entries, and for each entry that is a directory either
returns its full path (when the name is `"app"`) or pushes it.  The
filesystem is modelled as an immutable tree; `readdir` of a directory
returns its `children` list in order.  The work-list is modelled with its
top at the head (head-pop and head-push correspond to JS `pop`/`push` at
the array's end).  Entries that are not directories are skipped by the
`item.isDirectory()` guard and are carried in the model as `file` leaves. -/

inductive FSEntry where
  | file (name : String)
  | dir (name : String) (children : List FSEntry)

abbrev DirStack := List (Path × List FSEntry)

/-- Total number of entries below a listing (files count one, directories
count two plus their contents); used as a termination measure. -/
def listWeight : List FSEntry → Nat
  | [] => 0
  | .file _ :: rest => 1 + listWeight rest
  | .dir _ cs :: rest => 2 + listWeight cs + listWeight rest
termination_by l => sizeOf l
decreasing_by
  all_goals simp only [List.cons.sizeOf_spec, FSEntry.dir.sizeOf_spec]
  all_goals omega

/-- Weight of a work-list used as termination measure: each pending
directory counts one plus the weight of its listing. -/
def stackWeight (st : DirStack) : Nat :=
  st.foldr (fun e acc => 1 + listWeight e.2 + acc) 0

/-- One iteration of the inner `for` loop of `getAppDirectoryPath`: walk the
listing `items` of directory `d` in readdir order; on the first
subdirectory named `"app"` return its full path, otherwise push each
subdirectory onto the stack (so the last listed child ends on top). -/
def pushOrFind (d : Path) : List FSEntry → DirStack → Path ⊕ DirStack
  | [], st => .inr st
  | .file _ :: rest, st => pushOrFind d rest st
  | .dir n cs :: rest, st =>
    if n = "app" then .inl (d ++ [n])
    else pushOrFind d rest ((d ++ [n], cs) :: st)

theorem pushOrFind_inr_weight (d : Path) :
    ∀ (items : List FSEntry) (st st' : DirStack),
      pushOrFind d items st = .inr st' →
      stackWeight st' ≤ listWeight items + stackWeight st := by
  intro items
  induction items with
  | nil =>
    intro st st' h
    simp [pushOrFind] at h
    simp [h, listWeight]
  | cons e rest ih =>
    intro st st' h
    cases e with
    | file n =>
      simp only [pushOrFind] at h
      have := ih st st' h
      simp only [listWeight] at *
      omega
    | dir n cs =>
      simp only [pushOrFind] at h
      by_cases hn : n = "app"
      · simp [hn] at h
      · simp only [if_neg hn] at h
        have := ih ((d ++ [n], cs) :: st) st' h
        simp only [listWeight, stackWeight, List.foldr] at *
        omega

/-- The `while` loop of `getAppDirectoryPath`.  The JS loop has no fuel;
the `fuel` argument only bounds the number of iterations so that the
recursion is structural.  Each iteration strictly decreases `stackWeight`
(see `pushOrFind_inr_weight`), so any `fuel > stackWeight st` makes the
fueled loop equal to the unbounded one; `getAppLoopFuel_eq_head` proves the
result is the same for every sufficient fuel. -/
def getAppLoopFuel : Nat → DirStack → Option Path
  | 0, _ => none
  | _ + 1, [] => none
  | fuel + 1, (d, items) :: rest =>
    match pushOrFind d items rest with
    | .inl p => some p
    | .inr st => getAppLoopFuel fuel st

/-- `getAppDirectoryPath(startDir)` from src/util.js: the start directory is
given by its path together with its listing (the function readdirs the start
path first; the start directory's own name is never examined). -/
def getAppDirectoryPath (startPath : Path) (children : List FSEntry) : Option Path :=
  getAppLoopFuel (2 + listWeight children) [(startPath, children)]

/-! ### Specification-side candidate sets for C2 -/

/-- All proper descendant directories named `"app"` of a directory at path
`base` with the given listing, in depth-first listing order (this is the
specification-side candidate set, written from the claim's words
"directory named app at depth ≥ 1"). -/
def appDescL (base : Path) : List FSEntry → List Path
  | [] => []
  | .file _ :: rest => appDescL base rest
  | .dir n cs :: rest =>
    (if n = "app" then [base ++ [n]] else []) ++
      appDescL (base ++ [n]) cs ++ appDescL base rest
termination_by l => listWeight l
decreasing_by
  all_goals simp only [listWeight]
  all_goals omega

/-- The claim's candidate set at "depth ≥ 0 from the start path": the start
directory itself (whose name is the last component of the start path)
together with all proper descendants. -/
def appDirsFromDepth0 (startPath : Path) (children : List FSEntry) : List Path :=
  (if startPath.getLast? = some "app" then [startPath] else []) ++
    appDescL startPath children

/-- The subdirectories of one listing that are named `"app"`, as full
paths in readdir order. -/
def appsOf (d : Path) : List FSEntry → List Path
  | [] => []
  | .file _ :: rest => appsOf d rest
  | .dir n _ :: rest => (if n = "app" then [d ++ [n]] else []) ++ appsOf d rest

/-- Push every subdirectory of a listing that is not named `"app"`,
in readdir order (the non-short-circuiting analogue of `pushOrFind`). -/
def pushAll (d : Path) : List FSEntry → DirStack → DirStack
  | [], st => st
  | .file _ :: rest, st => pushAll d rest st
  | .dir n cs :: rest, st =>
    if n = "app" then pushAll d rest st
    else pushAll d rest ((d ++ [n], cs) :: st)

theorem pushAll_weight (d : Path) :
    ∀ (items : List FSEntry) (st : DirStack),
      stackWeight (pushAll d items st) ≤ listWeight items + stackWeight st := by
  intro items
  induction items with
  | nil => intro st; simp [pushAll, listWeight]
  | cons e rest ih =>
    intro st
    cases e with
    | file n =>
      have := ih st
      simp only [pushAll, listWeight] at *
      omega
    | dir n cs =>
      by_cases hn : n = "app"
      · have := ih st
        simp only [pushAll, if_pos hn, listWeight] at *
        omega
      · have := ih ((d ++ [n], cs) :: st)
        simp only [pushAll, if_neg hn, listWeight, stackWeight, List.foldr] at *
        omega

/-- The full sequence of `"app"` directories in the order the LIFO
traversal discovers them (the traversal of the source short-circuits at the
first one; this enumeration keeps going and is used to state "first
discovered under the LIFO work-list traversal order"). -/
def lifoAppOrder : DirStack → List Path
  | [] => []
  | (d, items) :: rest => appsOf d items ++ lifoAppOrder (pushAll d items rest)
termination_by st => stackWeight st
decreasing_by
  have := pushAll_weight d items rest
  simp only [stackWeight, List.foldr] at *
  omega

/-- Candidate set of a whole work-list. -/
def stackDesc (st : DirStack) : List Path :=
  st.foldr (fun e acc => appDescL e.1 e.2 ++ acc) []

theorem pushOrFind_inl (d : Path) :
    ∀ (items : List FSEntry) (st : DirStack) (p : Path),
      pushOrFind d items st = .inl p → (appsOf d items).head? = some p := by
  intro items
  induction items with
  | nil => intro st p h; simp [pushOrFind] at h
  | cons e rest ih =>
    intro st p h
    cases e with
    | file n => exact ih st p h
    | dir n cs =>
      by_cases hn : n = "app"
      · simp only [pushOrFind, if_pos hn] at h
        cases h
        simp [appsOf, hn]
      · simp only [pushOrFind, if_neg hn] at h
        simpa [appsOf, hn] using ih _ p h

theorem pushOrFind_inr (d : Path) :
    ∀ (items : List FSEntry) (st st' : DirStack),
      pushOrFind d items st = .inr st' →
      appsOf d items = [] ∧ st' = pushAll d items st := by
  intro items
  induction items with
  | nil => intro st st' h; simp [pushOrFind] at h; simp [appsOf, pushAll, h]
  | cons e rest ih =>
    intro st st' h
    cases e with
    | file n =>
      have := ih st st' h
      simpa [appsOf, pushAll] using this
    | dir n cs =>
      by_cases hn : n = "app"
      · simp [pushOrFind, hn] at h
      · simp only [pushOrFind, if_neg hn] at h
        have := ih _ st' h
        simpa [appsOf, pushAll, hn] using this

/-- The traversal returns the head of the LIFO discovery order: the loop
short-circuits exactly at the first `"app"` directory the enumeration
would list, and the result does not depend on the fuel once the fuel
exceeds the work-list weight. -/
theorem getAppLoopFuel_eq_head :
    ∀ (fuel : Nat) (st : DirStack), stackWeight st < fuel →
      getAppLoopFuel fuel st = (lifoAppOrder st).head? := by
  intro fuel
  induction fuel with
  | zero => intro st h; omega
  | succ n ih =>
    intro st hlt
    cases st with
    | nil => simp [getAppLoopFuel, lifoAppOrder]
    | cons top rest =>
      rcases top with ⟨d, items⟩
      rw [lifoAppOrder]
      rcases hpf : pushOrFind d items rest with p | st'
      · have h1 := pushOrFind_inl d items rest p hpf
        rw [getAppLoopFuel]
        simp only [hpf]
        rcases h2 : appsOf d items with _ | ⟨q, qs⟩
        · simp [h2] at h1
        · simp [h2] at h1 ⊢
          exact h1.symm
      · have h1 := pushOrFind_inr d items rest st' hpf
        rw [getAppLoopFuel]
        simp only [hpf, h1.1, List.nil_append]
        rw [h1.2]
        have hw : stackWeight (pushAll d items rest) ≤ listWeight items + stackWeight rest :=
          pushAll_weight d items rest
        have hst : stackWeight ((d, items) :: rest) = 1 + listWeight items + stackWeight rest := rfl
        exact ih (pushAll d items rest) (by omega)

theorem appsOf_subset_appDesc (d : Path) :
    ∀ (items : List FSEntry) (q : Path), q ∈ appsOf d items → q ∈ appDescL d items := by
  intro items
  induction items with
  | nil => intro q h; simp [appsOf] at h
  | cons e rest ih =>
    intro q h
    cases e with
    | file n =>
      rw [appDescL]
      exact ih q h
    | dir n cs =>
      rw [appDescL]
      simp only [appsOf] at h
      simp only [List.append_assoc]
      rcases List.mem_append.mp h with h1 | h2
      · exact List.mem_append_left _ h1
      · exact List.mem_append_right _ (List.mem_append_right _ (ih q h2))

theorem stackDesc_cons (d : Path) (items : List FSEntry) (st : DirStack) :
    stackDesc ((d, items) :: st) = appDescL d items ++ stackDesc st := rfl

theorem stackDesc_pushAll (d : Path) :
    ∀ (items : List FSEntry) (st : DirStack) (q : Path),
      q ∈ stackDesc (pushAll d items st) →
      q ∈ appDescL d items ∨ q ∈ stackDesc st := by
  intro items
  induction items with
  | nil => intro st q h; right; simpa [pushAll] using h
  | cons e rest ih =>
    intro st q h
    cases e with
    | file n =>
      rw [appDescL]
      exact ih st q (by simpa [pushAll] using h)
    | dir n cs =>
      rw [appDescL]
      simp only [List.append_assoc]
      by_cases hn : n = "app"
      · simp only [pushAll, if_pos hn] at h
        rcases ih st q h with h1 | h2
        · exact .inl (List.mem_append_right _ (List.mem_append_right _ h1))
        · exact .inr h2
      · simp only [pushAll, if_neg hn] at h
        rcases ih _ q h with h1 | h2
        · exact .inl (List.mem_append_right _ (List.mem_append_right _ h1))
        · rw [stackDesc_cons] at h2
          rcases List.mem_append.mp h2 with h3 | h4
          · exact .inl (List.mem_append_right _ (List.mem_append_left _ h3))
          · exact .inr h4

/-- Every path the LIFO enumeration lists is an `"app"` descendant of some
work-list element. -/
theorem lifoAppOrder_subset (st : DirStack) :
    ∀ q, q ∈ lifoAppOrder st → q ∈ stackDesc st := by
  induction st using lifoAppOrder.induct with
  | case1 => intro q h; simp [lifoAppOrder] at h
  | case2 d items rest ih =>
    intro q h
    rw [lifoAppOrder] at h
    rw [stackDesc_cons]
    rcases List.mem_append.mp h with h1 | h2
    · exact List.mem_append.mpr (.inl (appsOf_subset_appDesc d items q h1))
    · rcases stackDesc_pushAll d items rest q (ih q h2) with h3 | h4
      · exact List.mem_append.mpr (.inl h3)
      · exact List.mem_append.mpr (.inr h4)

theorem pushAll_empty_desc (d : Path) :
    ∀ (items : List FSEntry) (st : DirStack),
      appsOf d items = [] →
      stackDesc (pushAll d items st) = [] →
      appDescL d items = [] ∧ stackDesc st = [] := by
  intro items
  induction items with
  | nil => intro st _ h2; simp [pushAll] at h2; simp [appDescL, h2]
  | cons e rest ih =>
    intro st h1 h2
    cases e with
    | file n =>
      rw [appDescL]
      exact ih st (by simpa [appsOf] using h1) (by simpa [pushAll] using h2)
    | dir n cs =>
      by_cases hn : n = "app"
      · simp [appsOf, hn] at h1
      · simp only [appsOf, hn, if_false, List.nil_append] at h1
        simp only [pushAll, if_neg hn] at h2
        have h3 := ih _ h1 h2
        rw [stackDesc_cons] at h3
        rcases h3 with ⟨h4, h5⟩
        rcases List.append_eq_nil.mp h5 with ⟨h6, h7⟩
        refine ⟨?_, h7⟩
        rw [appDescL]
        simp [hn, h4, h6]

/-- If the LIFO enumeration finds nothing, there is no `"app"` descendant
anywhere in the work-list. -/
theorem lifoAppOrder_nil (st : DirStack) :
    lifoAppOrder st = [] → stackDesc st = [] := by
  induction st using lifoAppOrder.induct with
  | case1 => intro _; rfl
  | case2 d items rest ih =>
    intro h
    rw [lifoAppOrder] at h
    rcases List.append_eq_nil.mp h with ⟨h1, h2⟩
    have h3 := pushAll_empty_desc d items rest h1 (ih h2)
    rw [stackDesc_cons, h3.1, h3.2]
    rfl

/-! ## Project manifests and auth-profile selection
(src/README.md lines 107-123, the later `index.js` variant)

`package.json` is read with `JSON.parse`; the fields the program uses are
`name` (possibly absent) and `dependencies` (possibly absent, a JSON object
mapping package names to version-constraint strings, keys unique).  The
detection code is

    const hasNextAuth = packageJson.dependencies && packageJson.dependencies["next-auth"]
    const hasClerk = packageJson.dependencies && packageJson.dependencies["@clerk/nextjs"]

followed by `if (hasNextAuth) ... else if (hasClerk) ... else ...`.  The
branch tests JS truthiness of the looked-up version string: an absent key
gives `undefined` (falsy) and an empty version string `""` is also falsy. -/

structure PackageJson where
  name : Option String
  dependencies : Option (List (String × String))
deriving DecidableEq, Repr

/-- JS truthiness of the value of `deps[key]`: the key is present and its
version string is non-empty. -/
def truthyLookup (deps : List (String × String)) (key : String) : Bool :=
  match deps.find? (fun e => e.1 == key) with
  | some e => e.2 != ""
  | none => false

/-- `packageJson.dependencies && packageJson.dependencies["next-auth"]`
used as a condition. -/
def hasNextAuth (pj : PackageJson) : Bool :=
  match pj.dependencies with
  | some deps => truthyLookup deps "next-auth"
  | none => false

/-- `packageJson.dependencies && packageJson.dependencies["@clerk/nextjs"]`
used as a condition. -/
def hasClerk (pj : PackageJson) : Bool :=
  match pj.dependencies with
  | some deps => truthyLookup deps "@clerk/nextjs"
  | none => false

/-- The three authentication profiles of the spec's AuthAdapterSelector. -/
inductive AuthProfile where
  | nextAuth
  | clerk
  | localhostBypass
deriving DecidableEq, Repr

/-- The selection made by the `if (hasNextAuth) ... else if (hasClerk) ...
else ...` chain of the README orchestrator variant. -/
def selectAuthProfile (pj : PackageJson) : AuthProfile :=
  if hasNextAuth pj then .nextAuth
  else if hasClerk pj then .clerk
  else .localhostBypass

/-- The claim-side membership test: `"next-auth"` (or `"@clerk/nextjs"`)
is a key of `declaredDependencies`, regardless of its version string. -/
def depDeclared (pj : PackageJson) (key : String) : Bool :=
  match pj.dependencies with
  | some deps => deps.any (fun e => e.1 == key)
  | none => false

/-! ## The orchestrator's filesystem

A mutable filesystem is a finite association list from paths to file data
together with a list of existing directories.  `find?` takes the first
binding, and `writeFile` removes old bindings for the path, so the list
behaves as a map even if it ever held duplicates.  File contents are either
plain text or a parsed JSON manifest (`readJson`/`JSON.parse` of a file that
holds a manifest is modelled by storing the manifest itself; reading any
other file as a manifest fails, and appending text to a manifest file is
outside the model and leaves it unchanged — no claim exercises it). -/

inductive FileData where
  | text (s : String)
  | jsonManifest (pj : PackageJson)
deriving DecidableEq, Repr

/-- Append a string to file contents (used by `fs.appendFile`). -/
def FileData.appendStr : FileData → String → FileData
  | .text s, x => .text (s ++ x)
  | .jsonManifest pj, _ => .jsonManifest pj

structure FS where
  files : List (Path × FileData)
  dirs : List Path
deriving DecidableEq, Repr

def FS.lookupFile (fs : FS) (p : Path) : Option FileData :=
  (fs.files.find? (fun e => e.1 == p)).map (·.2)

def FS.isDir (fs : FS) (p : Path) : Bool :=
  fs.dirs.contains p

/-- `fs.existsSync`: the path names a file or a directory.  (Node's
`existsSync` returns `false` for invalid arguments such as `null`; the
`null` case is handled at the call site.) -/
def FS.existsSync (fs : FS) (p : Path) : Bool :=
  (fs.lookupFile p).isSome || fs.isDir p

def FS.eraseFile (fs : FS) (p : Path) : FS :=
  { fs with files := fs.files.filter (fun e => !(e.1 == p)) }

/-- `fs.writeFile`: create or overwrite one file. -/
def FS.writeFile (fs : FS) (p : Path) (d : FileData) : FS :=
  { fs with files := (p, d) :: (fs.eraseFile p).files }

/-- `fs.appendFile`: append to a file, creating it when missing. -/
def FS.appendFile (fs : FS) (p : Path) (x : String) : FS :=
  match fs.lookupFile p with
  | some d => fs.writeFile p (d.appendStr x)
  | none => fs.writeFile p (.text x)

/-- `fs.mkdir` (the orchestrator only calls it when the directory does not
exist and its parent does). -/
def FS.mkdirAt (fs : FS) (p : Path) : FS :=
  { fs with dirs := p :: fs.dirs }

/-- `fs.ensureDir` from fs-extra. -/
def FS.ensureDir (fs : FS) (p : Path) : FS :=
  if fs.existsSync p then fs else fs.mkdirAt p

/-- `fs.remove` from fs-extra: delete the file or directory at `p` and
everything below it; removing a non-existent path succeeds and is a
no-op. -/
def FS.removeAll (fs : FS) (p : Path) : FS :=
  { files := fs.files.filter (fun e => !(p.isPrefixOf e.1)),
    dirs := fs.dirs.filter (fun q => !(p.isPrefixOf q)) }

/-- `fs.copy` from fs-extra: if `src` is a file, copy that file to `dst`
(overwriting); if `src` is a directory, copy the whole subtree below it,
overwriting files already present at the destination; if `src` does not
exist, fail (`none`, modelling the thrown `ENOENT`). -/
def FS.copyAll (fs : FS) (src dst : Path) : Option FS :=
  match fs.lookupFile src with
  | some d => some (fs.writeFile dst d)
  | none =>
    if fs.isDir src then
      let copiedFiles := fs.files.filterMap (fun e =>
        if src.isPrefixOf e.1 then some (dst ++ e.1.drop src.length, e.2) else none)
      let withDirs : FS :=
        { fs with dirs := fs.dirs.filterMap (fun q =>
            if src.isPrefixOf q then some (dst ++ q.drop src.length) else none) ++ fs.dirs }
      some (copiedFiles.foldl (fun a e => a.writeFile e.1 e.2) withDirs)
    else none

/-! ## Errors, events and worlds

A `World` is the mutable filesystem together with the trace of filesystem
events an orchestrator run has performed, in order.  Fallible operations
return `Except (World × JsError) World`: a thrown JS error carries the
world as of the throw, because the top-level `catch` of the orchestrator
reports the error but leaves all completed filesystem effects in place. -/

inductive JsError where
  | typeError
  | enoent
  | jsonParseError
deriving DecidableEq, Repr

inductive FsEvent where
  | mkdirEv (p : Path)
  | ensureDirEv (p : Path)
  | copyEv (src dst : Path)
  | removeEv (p : Path)
  | cloneEv (dst : Path)
  | envWriteEv (p : Path)
deriving DecidableEq, Repr

structure World where
  fs : FS
  trace : List FsEvent
deriving DecidableEq, Repr

/-- `git clone` of the template repository into `dst` (mocked to succeed):
materialise the template's directories and files below `dst`. -/
def installTemplate (fs : FS) (dst : Path) (tpl : FS) : FS :=
  let withDirs : FS := { fs with dirs := tpl.dirs.map (fun q => dst ++ q) ++ fs.dirs }
  tpl.files.foldl (fun a e => a.writeFile (dst ++ e.1) e.2) withDirs

def World.mkdirW (w : World) (p : Path) : World :=
  ⟨w.fs.mkdirAt p, w.trace ++ [.mkdirEv p]⟩

def World.ensureDirW (w : World) (p : Path) : World :=
  ⟨w.fs.ensureDir p, w.trace ++ [.ensureDirEv p]⟩

def World.removeW (w : World) (p : Path) : World :=
  ⟨w.fs.removeAll p, w.trace ++ [.removeEv p]⟩

def World.cloneW (w : World) (dst : Path) (tpl : FS) : World :=
  ⟨installTemplate w.fs dst tpl, w.trace ++ [.cloneEv dst]⟩

def World.copyW (w : World) (src dst : Path) : Except (World × JsError) World :=
  match w.fs.copyAll src dst with
  | some fs2 => .ok ⟨fs2, w.trace ++ [.copyEv src dst]⟩
  | none => .error (w, .enoent)

/-! ## util.js helpers used by both orchestrator variants -/

/-- `checkIsNextProject` (src/util.js lines 34-37): `package.json` and
`next.config.js` must both exist directly inside `dir`. -/
def checkIsNextProject (fs : FS) (dir : Path) : Bool :=
  ["package.json", "next.config.js"].all (fun f => fs.existsSync (dir ++ [f]))

/-- `readdir` restricted to subdirectories: the names of the immediate
subdirectories of `p`, in an order derived from the directory list (the
spec leaves readdir order filesystem-dependent). -/
def FS.listSubdirNames (fs : FS) (p : Path) : List String :=
  (fs.dirs.filterMap (fun q =>
    if q.length = p.length + 1 && p.isPrefixOf q then q.getLast? else none)).dedup

/-- Inner `for` loop of `getAppDirectoryPath` over a listing of
subdirectory names (stack top at the head, as in the tree model). -/
def pushOrFindFS (d : Path) : List String → List Path → Path ⊕ List Path
  | [], st => .inr st
  | n :: rest, st =>
    if n = "app" then .inl (d ++ [n]) else pushOrFindFS d rest ((d ++ [n]) :: st)

/-- The `while` loop of `getAppDirectoryPath`, run against the map-based
filesystem.  The fuel only bounds the iteration count: every pushed path is
an element of `fs.dirs` and each directory is popped at most once (a path
has at most one parent), so `fs.dirs.length + 1` pops always suffice. -/
def getAppDirLoopFS (fs : FS) : Nat → List Path → Option Path
  | 0, _ => none
  | _ + 1, [] => none
  | fuel + 1, d :: rest =>
    match pushOrFindFS d (fs.listSubdirNames d) rest with
    | .inl p => some p
    | .inr st => getAppDirLoopFS fs fuel st

def getAppDirectoryPathFS (fs : FS) (start : Path) : Option Path :=
  getAppDirLoopFS fs (fs.dirs.length + 1) [start]

/-- `getProjectName` (src/util.js lines 100-109).  `projectDir` is an
`Option` because JS callers may omit the argument: `path.join(undefined,
"package.json")` throws a `TypeError` before any file is read. -/
def getProjectName (projectDir : Option Path) (fs : FS) : Except JsError String :=
  match projectDir with
  | none => .error .typeError
  | some dir =>
    match fs.lookupFile (dir ++ ["package.json"]) with
    | some (.jsonManifest pj) => .ok (pj.name.getD "")
    | some (.text _) => .error .jsonParseError
    | none => .error .enoent

/-- `JSON.parse(await fs.promises.readFile(...))` for `package.json`
(README orchestrator lines 108-111). -/
def readJsonManifest (fs : FS) (p : Path) : Except JsError PackageJson :=
  match fs.lookupFile p with
  | some (.jsonManifest pj) => .ok pj
  | some (.text _) => .error .jsonParseError
  | none => .error .enoent

/-- Answers the user types at the four (or five) environment prompts;
`none` models pressing enter, which yields the question's default (`""`
for the questions without a default). -/
structure EnvAnswers where
  awsAccessKeyId : Option String
  awsSecretAccessKey : Option String
  awsRegion : Option String
  awsS3BucketName : Option String
  openAiApiKey : Option String
deriving DecidableEq, Repr

/-- `promptForEnvVariables` of the earlier util.js variant (lines 122-152,
four questions).  Inquirer's answers object keeps insertion order, so the
result is the ordered list of key/answer pairs. -/
def promptForEnvVariablesA (projectDir : Option Path) (fs : FS) (ans : EnvAnswers) :
    Except JsError (List (String × String)) := do
  let projectName ← getProjectName projectDir fs
  let defaultBucketName := slugify projectName ++ "-bucket-cms"
  pure [("AWS_ACCESS_KEY_ID", ans.awsAccessKeyId.getD ""),
    ("AWS_SECRET_ACCESS_KEY", ans.awsSecretAccessKey.getD ""),
    ("AWS_REGION", ans.awsRegion.getD ""),
    ("AWS_S3_BUCKET_NAME", ans.awsS3BucketName.getD defaultBucketName)]

/-- `promptForEnvVariables` of the later util.js variant (lines 326-361,
five questions, adding `OPENAI_API_KEY`). -/
def promptForEnvVariablesB (projectDir : Option Path) (fs : FS) (ans : EnvAnswers) :
    Except JsError (List (String × String)) := do
  let projectName ← getProjectName projectDir fs
  let defaultBucketName := slugify projectName ++ "-bucket-cms"
  pure [("AWS_ACCESS_KEY_ID", ans.awsAccessKeyId.getD ""),
    ("AWS_SECRET_ACCESS_KEY", ans.awsSecretAccessKey.getD ""),
    ("AWS_REGION", ans.awsRegion.getD ""),
    ("AWS_S3_BUCKET_NAME", ans.awsS3BucketName.getD defaultBucketName),
    ("OPENAI_API_KEY", ans.openAiApiKey.getD "")]

/-- JS `array.join("\n")`. -/
def joinNewline : List String → String
  | [] => ""
  | [x] => x
  | x :: y :: xs => x ++ "\n" ++ joinNewline (y :: xs)

/-- The serialized `KEY=value` block of `writeEnvVariables`. -/
def envSerialize (envVariables : List (String × String)) : String :=
  joinNewline (envVariables.map (fun e => e.1 ++ "=" ++ e.2))

/-- `writeEnvVariables` (src/util.js lines 154-169): append the block after
a newline when `.env.local` exists, otherwise create the file with exactly
the block. -/
def writeEnvVariablesFS (envVariables : List (String × String)) (projectDir : Path)
    (fs : FS) : FS :=
  let envPath := projectDir ++ [".env.local"]
  let envData := envSerialize envVariables
  if fs.existsSync envPath then fs.appendFile envPath ("\n" ++ envData)
  else fs.writeFile envPath (.text envData)

def World.writeEnvW (w : World) (envVariables : List (String × String))
    (projectDir : Path) : World :=
  ⟨writeEnvVariablesFS envVariables projectDir w.fs,
    w.trace ++ [.envWriteEv (projectDir ++ [".env.local"])]⟩

/-- Number of lines of a text file's contents: one more than the number of
newline characters (for non-empty contents this is the length of
`content.splitOn "\n"`, the usual editor line count). -/
def lineCount (s : String) : Nat := s.data.count '\n' + 1

/-! ## getAvailablePort (src/util.js lines 191-204)

`getAvailablePort(startPort)` tries to bind a TCP listener to `startPort`;
on success the socket is closed and `startPort` is returned, on an error
event it recurses with `startPort + 1`.  The ambient bind outcomes are a
predicate `free`; binding succeeds exactly on free ports (OS behaviour for
port `0` and for ports above 65535 is outside the model).  The source has
no upper bound and diverges when no port at or above `startPort` is free,
so the embedding carries the termination hypothesis that some free port
exists. -/

def getAvailablePort (free : Nat → Bool) (startPort : Nat)
    (h : ∃ k, free (startPort + k) = true) : Nat :=
  if hf : free startPort = true then startPort
  else
    getAvailablePort free (startPort + 1)
      (by
        rcases h with ⟨k, hk⟩
        cases k with
        | zero => exact absurd hk hf
        | succ k =>
          refine ⟨k, ?_⟩
          have : startPort + 1 + k = startPort + (k + 1) := by omega
          rw [this]
          exact hk)
termination_by Nat.find h
decreasing_by
  have hspec := Nat.find_spec h
  have hpos : 0 < Nat.find h := by
    rcases Nat.eq_zero_or_pos (Nat.find h) with h0 | h0
    · rw [h0] at hspec
      exact absurd hspec hf
    · exact h0
  have hfree1 : free (startPort + 1 + (Nat.find h - 1)) = true := by
    have heq : startPort + 1 + (Nat.find h - 1) = startPort + Nat.find h := by omega
    rw [heq]
    exact hspec
  exact Nat.lt_of_le_of_lt (Nat.find_le hfree1) (by omega)

/-! ## The orchestrators

Two variants of `integrateBucketCMS` are in the sources: the one in
`src/index.js` (no auth detection, prompts for the bucket route, calls
`promptForEnvVariables()` without an argument) and the one embedded in
`src/README.md` lines 86-253 (auth detection and adapter replacement, fixed
bucket route, five-question prompt called with the project directory).
External collaborators — the dependency fetch, the package-manager install,
`git clone`, the browser open and the dev server — are mocked to succeed
and, except for the clone materialising the template, have no effect on the
host filesystem.  Interactive prompts are answer values in the inputs
structure. -/

inductive RunOutcome where
  | notNextProject
  | appDirNotFound
  | caught (e : JsError)
  | success (port : Nat)
deriving DecidableEq, Repr

/-- Is the outcome a successful completion? -/
def RunOutcome.isSuccess : RunOutcome → Bool
  | .success _ => true
  | _ => false

/-- Does the character list start with `sub`? -/
def listStartsWith : List Char → List Char → Bool
  | _, [] => true
  | [], _ :: _ => false
  | c :: cs, d :: ds => c == d && listStartsWith cs ds

/-- Does the character list contain `sub` as a contiguous run? -/
def listContainsSub (l sub : List Char) : Bool :=
  match l with
  | [] => sub.isEmpty
  | _ :: rest => listStartsWith l sub || listContainsSub rest sub

/-- JS `String.prototype.includes`. -/
def jsIncludes (s sub : String) : Bool := listContainsSub s.data sub.data

/-- JS property access `record.length` on an inquirer answers object: a
plain object has no `length` property, so the access yields `undefined`
(`none`); `undefined > 0` and `undefined === 4` are both false. -/
def recordLength (_answers : List (String × String)) : Option Nat := none

structure ReadmeInputs where
  /-- Answer to `getProjectDirectory`; `none` models the falsy empty
  answer string checked by `!projectDir` (a non-empty relative path such
  as `"./"` has the empty component list `[]`). -/
  projectDir : Option Path
  /-- Contents of the cloned `bucket-cms` repository, with paths relative
  to the clone root. -/
  template : FS
  envAnswers : EnvAnswers
  /-- Answer to `promptForPackageManager`. -/
  packageManager : String
  /-- Keys of the `dependencies` object fetched from the remote
  `package.json` (the fetch is mocked to succeed). -/
  repoDependencies : List String
  /-- Ambient TCP bind outcomes for `getAvailablePort`. -/
  free : Nat → Bool
  hfree : ∃ k, free (3000 + k) = true

/-- README orchestrator lines 180-207: copy the adapter matching the
detected auth solution over `auth/get-session-user.ts` inside the installed
api tree (with overwrite), then remove the three candidate adapter
directories from the template source. -/
def configureAuth (hasNA hasCl : Bool) (tempDir apiDir : Path) (w : World) :
    Except (World × JsError) World :=
  let targetAuthFilePath := apiDir ++ ["auth", "get-session-user.ts"]
  let copied :=
    if hasNA then
      w.copyW (tempDir ++ ["src", "app", "api", "bucket", "auth", "next-auth",
        "get-session-user.ts"]) targetAuthFilePath
    else if hasCl then
      w.copyW (tempDir ++ ["src", "app", "api", "bucket", "auth", "clerk",
        "get-session-user.ts"]) targetAuthFilePath
    else
      w.copyW (tempDir ++ ["src", "app", "api", "bucket", "auth", "localhost-only",
        "get-session-user.ts"]) targetAuthFilePath
  match copied with
  | .error we => .error we
  | .ok w7 =>
    let w8 := w7.removeW (tempDir ++ ["src", "app", "api", "bucket", "auth", "localhost-only"])
    let w9 := w8.removeW (tempDir ++ ["src", "app", "api", "bucket", "auth", "next-auth"])
    let w10 := w9.removeW (tempDir ++ ["src", "app", "api", "bucket", "auth", "clerk"])
    .ok w10

/-- Body of the README orchestrator after validation succeeded, from the
manifest read for auth detection to the dev-server launch. -/
def readmeMain (inp : ReadmeInputs) (projectDir appDir : Path) (w0 : World) :
    Except (World × JsError) (World × Nat) :=
  match readJsonManifest w0.fs (projectDir ++ ["package.json"]) with
  | .error e => .error (w0, e)
  | .ok pj =>
    let hasNA := hasNextAuth pj
    let hasCl := hasClerk pj
    let w1 := if w0.fs.existsSync (appDir ++ ["api"]) then w0 else w0.mkdirW (appDir ++ ["api"])
    let apiDir := appDir ++ ["api", "bucket"]
    let _dependencies := (inp.repoDependencies.filter (fun dep => !(dep == "next-auth"))).filter
      (fun dep => jsIncludes dep "clerk")
    let tempDir := projectDir ++ [".bucket-cms-temp"]
    let w2 := if w1.fs.existsSync tempDir then w1.removeW tempDir else w1
    let w3 := w2.cloneW tempDir inp.template
    let bucketRoute := appDir ++ ["bucket"]
    let sourceBucketDir := tempDir ++ ["src", "app", "bucket"]
    let targetBucketDir := projectDir ++ bucketRoute
    let w4 := w3.ensureDirW targetBucketDir
    match w4.copyW sourceBucketDir targetBucketDir with
    | .error we => .error we
    | .ok w5 =>
      let sourceApiDir := tempDir ++ ["src", "app", "api", "bucket"]
      match w5.copyW sourceApiDir apiDir with
      | .error we => .error we
      | .ok w6 =>
        match configureAuth hasNA hasCl tempDir apiDir w6 with
        | .error we => .error we
        | .ok w10 =>
          match w10.copyW (tempDir ++ ["public", "bucket-cms-logo.jpg"])
              (projectDir ++ ["public", "bucket-cms-logo.jpg"]) with
          | .error we => .error we
          | .ok w11 =>
            let w12 := w11.removeW tempDir
            match promptForEnvVariablesB (some projectDir) w12.fs inp.envAnswers with
            | .error e => .error (w12, e)
            | .ok envVariables =>
              let w13 := w12.writeEnvW envVariables projectDir
              let port := getAvailablePort inp.free 3000 inp.hfree
              let w14 := w13.removeW (projectDir ++ [".next"])
              .ok (w14, port)

/-- The README variant of `integrateBucketCMS`.  `fs.existsSync(null)`
returns `false` in Node, so a `null` from `getAppDirectoryPath` takes the
"app directory not found" early return. -/
def integrateBucketCMSReadme (inp : ReadmeInputs) (w0 : World) : World × RunOutcome :=
  match inp.projectDir with
  | none => (w0, .notNextProject)
  | some projectDir =>
    if !(checkIsNextProject w0.fs projectDir) then (w0, .notNextProject)
    else
      match getAppDirectoryPathFS w0.fs projectDir with
      | none => (w0, .appDirNotFound)
      | some appDir =>
        if !(w0.fs.existsSync appDir) then (w0, .appDirNotFound)
        else
          match readmeMain inp projectDir appDir w0 with
          | .ok (w, port) => (w, .success port)
          | .error (w, e) => (w, .caught e)

structure CliInputs where
  /-- Answer to `getProjectDirectory` (`none` = falsy empty answer). -/
  projectDir : Option Path
  /-- Answer to `promptForBucketRoute` (its inquirer validation requires
  the answer to contain `/app/` or `/pages/`). -/
  bucketRoute : Path
  template : FS
  envAnswers : EnvAnswers
  packageManager : String
  repoDependencies : List String
  free : Nat → Bool
  hfree : ∃ k, free (3000 + k) = true

/-- src/index.js lines 100-128: the run from the environment-variable step
on.  `promptForEnvVariables()` is called without the project directory, so
`getProjectName` receives `undefined` and `path.join(undefined,
"package.json")` throws a `TypeError`.  The `envVariables.length > 0`
guard compares the `length` of an answers object (see `recordLength`). -/
def cliEnvOnward (inp : CliInputs) (projectDir : Path) (w : World) :
    Except (World × JsError) (World × Nat) :=
  match promptForEnvVariablesA none w.fs inp.envAnswers with
  | .error e => .error (w, e)
  | .ok envVariables =>
    let w1 :=
      match recordLength envVariables with
      | some n => if n > 0 then w.writeEnvW envVariables projectDir else w
      | none => w
    let port := getAvailablePort inp.free 3000 inp.hfree
    let w2 := w1.removeW (projectDir ++ [".next"])
    .ok (w2, port)

/-- Body of the src/index.js orchestrator after validation succeeded. -/
def cliMain (inp : CliInputs) (projectDir appDir : Path) (w0 : World) :
    Except (World × JsError) (World × Nat) :=
  let w1 := if w0.fs.existsSync (appDir ++ ["api"]) then w0 else w0.mkdirW (appDir ++ ["api"])
  let apiDir := appDir ++ ["api", "bucket"]
  let _dependencies := inp.repoDependencies
  let tempDir := projectDir ++ [".bucket-cms-temp"]
  let w2 := if w1.fs.existsSync tempDir then w1.removeW tempDir else w1
  let w3 := w2.cloneW tempDir inp.template
  let bucketRoute := inp.bucketRoute
  let sourceBucketDir := tempDir ++ ["src", "app", "bucket"]
  let targetBucketDir := projectDir ++ bucketRoute
  let w4 := w3.ensureDirW targetBucketDir
  match w4.copyW sourceBucketDir targetBucketDir with
  | .error we => .error we
  | .ok w5 =>
    let sourceApiDir := tempDir ++ ["src", "app", "api", "bucket"]
    match w5.copyW sourceApiDir apiDir with
    | .error we => .error we
    | .ok w6 =>
      let w7 := w6.removeW tempDir
      cliEnvOnward inp projectDir w7

/-- The src/index.js variant of `integrateBucketCMS`. -/
def integrateBucketCMSCli (inp : CliInputs) (w0 : World) : World × RunOutcome :=
  match inp.projectDir with
  | none => (w0, .notNextProject)
  | some projectDir =>
    if !(checkIsNextProject w0.fs projectDir) then (w0, .notNextProject)
    else
      match getAppDirectoryPathFS w0.fs projectDir with
      | none => (w0, .appDirNotFound)
      | some appDir =>
        if !(w0.fs.existsSync appDir) then (w0, .appDirNotFound)
        else
          match cliMain inp projectDir appDir w0 with
          | .ok (w, port) => (w, .success port)
          | .error (w, e) => (w, .caught e)

/-! ## The minimal end-to-end scenario (claim C5)

A minimal host project: a manifest with no auth dependency, a framework
configuration file, and an empty `app` directory, at project directory
`"./"` (empty component list).  The template holds the CMS UI route, the
api routes with the three candidate adapter directories, and the logo. -/

def minimalManifest : PackageJson := ⟨some "my-app", some []⟩

def minimalHostFS : FS :=
  { files := [(["package.json"], .jsonManifest minimalManifest),
      (["next.config.js"], .text "")],
    dirs := [["app"]] }

def minimalHostWorld : World := ⟨minimalHostFS, []⟩

def templateRepo : FS :=
  { files := [(["src", "app", "bucket", "page.tsx"], .text "bucket-ui"),
      (["src", "app", "api", "bucket", "route.ts"], .text "bucket-api"),
      (["src", "app", "api", "bucket", "auth", "get-session-user.ts"], .text "default-adapter"),
      (["src", "app", "api", "bucket", "auth", "next-auth", "get-session-user.ts"],
        .text "next-auth-adapter"),
      (["src", "app", "api", "bucket", "auth", "clerk", "get-session-user.ts"],
        .text "clerk-adapter"),
      (["src", "app", "api", "bucket", "auth", "localhost-only", "get-session-user.ts"],
        .text "localhost-adapter"),
      (["public", "bucket-cms-logo.jpg"], .text "logo")],
    dirs := [[], ["src"], ["src", "app"], ["src", "app", "bucket"], ["src", "app", "api"],
      ["src", "app", "api", "bucket"], ["src", "app", "api", "bucket", "auth"],
      ["src", "app", "api", "bucket", "auth", "next-auth"],
      ["src", "app", "api", "bucket", "auth", "clerk"],
      ["src", "app", "api", "bucket", "auth", "localhost-only"],
      ["public"]] }

def scenarioInputs : ReadmeInputs :=
  { projectDir := some []
    template := templateRepo
    envAnswers := ⟨some "AKIA123", some "oSecret", some "us-west-1", none, none⟩
    packageManager := "pnpm"
    repoDependencies := ["react", "@clerk/themes"]
    free := fun _ => true
    hfree := ⟨0, rfl⟩ }

/-- The final filesystem of the scenario run. -/
def scenarioFS : FS := (integrateBucketCMSReadme scenarioInputs minimalHostWorld).1.fs

/-- Split a character list at newlines (the semantics of
`content.splitOn "\n"`). -/
def splitLines : List Char → List (List Char)
  | [] => [[]]
  | c :: cs =>
    if c = '\n' then [] :: splitLines cs
    else
      match splitLines cs with
      | [] => [[c]]
      | l :: ls => (c :: l) :: ls

/-- Keys of the `KEY=value` lines of a text configuration file: for each
line, the part before the first `=`. -/
def envKeysOf (content : String) : List String :=
  (splitLines content.data).map (fun line => ⟨line.takeWhile (fun c => !(c == '='))⟩)

/-! ### Adapter-step events (claim C7) -/

/-- The adapter source file selected by the `if (hasNextAuth) ... else if
(hasClerk) ... else ...` chain. -/
def authSrcPath (hasNA hasCl : Bool) (tempDir : Path) : Path :=
  if hasNA then
    tempDir ++ ["src", "app", "api", "bucket", "auth", "next-auth", "get-session-user.ts"]
  else if hasCl then
    tempDir ++ ["src", "app", "api", "bucket", "auth", "clerk", "get-session-user.ts"]
  else
    tempDir ++ ["src", "app", "api", "bucket", "auth", "localhost-only", "get-session-user.ts"]

/-- The fixed adapter destination inside the installed api tree. -/
def targetAuthPath (apiDir : Path) : Path := apiDir ++ ["auth", "get-session-user.ts"]

/-- The three candidate adapter source directories in the template clone. -/
def adapterSourceDirs (tempDir : Path) : List Path :=
  [tempDir ++ ["src", "app", "api", "bucket", "auth", "localhost-only"],
    tempDir ++ ["src", "app", "api", "bucket", "auth", "next-auth"],
    tempDir ++ ["src", "app", "api", "bucket", "auth", "clerk"]]

/-- Events that touch the adapter machinery: copies to the fixed adapter
destination and removals of one of the three candidate source
directories. -/
def isAdapterEvent (tempDir apiDir : Path) : FsEvent → Bool
  | .copyEv _ dst => dst == targetAuthPath apiDir
  | .removeEv p => (adapterSourceDirs tempDir).contains p
  | _ => false

/-- A world with an empty filesystem and empty trace. -/
def emptyWorld : World := ⟨⟨[], []⟩, []⟩

/-- Inputs for a run against a host that is not a Next.js project. -/
def cliFailInputs : CliInputs :=
  { projectDir := some ["host"],
    bucketRoute := ["src", "app", "bucket"],
    template := templateRepo,
    envAnswers := ⟨none, none, none, none, none⟩,
    packageManager := "npm",
    repoDependencies := [],
    free := fun _ => true,
    hfree := ⟨0, rfl⟩ }

/-! ## Lemmas about slugify (claim C9) -/

theorem char_toNat_ofNat (n : Nat) (h : n.isValidChar) : (Char.ofNat n).toNat = n := by
  simp only [Char.ofNat, dif_pos h, Char.ofNatAux, Char.toNat, UInt32.toNat]
  exact BitVec.toNat_ofNatLt _ _

theorem char_eq_of_toNat_eq {c d : Char} (h : c.toNat = d.toNat) : c = d :=
  Char.ext (UInt32.ext h)

theorem jsToLower_not_upper (c : Char) : isUpperAscii (jsToLower c) = false := by
  rw [jsToLower]
  by_cases h : isUpperAscii c = true
  · rw [if_pos h]
    rw [isUpperAscii] at h ⊢
    simp only [Bool.and_eq_true, decide_eq_true_eq] at h
    have hvalid : (c.toNat + 32).isValidChar := Or.inl (by omega)
    rw [char_toNat_ofNat _ hvalid]
    simp only [Bool.and_eq_false_iff, decide_eq_false_iff_not]
    right
    omega
  · rw [if_neg h]
    simpa using h

theorem jsToLower_fix (c : Char) (h : isUpperAscii c = false) : jsToLower c = c := by
  simp [jsToLower, h]

theorem isSlugChar_not_upper (c : Char) (h : isSlugChar c = true) :
    isUpperAscii c = false := by
  simp only [isSlugChar, isWordChar, isUpperAscii, isHyphen, Bool.or_eq_true,
    Bool.and_eq_true, Bool.not_eq_true', Bool.and_eq_false_iff,
    decide_eq_true_eq, decide_eq_false_iff_not] at h ⊢
  omega

theorem isSlugChar_not_space (c : Char) (h : isSlugChar c = true) :
    isJsSpace c = false := by
  simp only [isSlugChar, isWordChar, isUpperAscii, isHyphen, isJsSpace, Bool.or_eq_true,
    Bool.and_eq_true, Bool.not_eq_true', Bool.or_eq_false_iff, Bool.and_eq_false_iff,
    decide_eq_true_eq, decide_eq_false_iff_not] at h ⊢
  omega

theorem isSlugChar_keep (c : Char) (h : isSlugChar c = true) :
    (isWordChar c || isHyphen c) = true := by
  simp only [isSlugChar, Bool.or_eq_true, Bool.and_eq_true] at h ⊢
  tauto

theorem isHyphen_eq (c : Char) (h : isHyphen c = true) : c = '-' := by
  simp only [isHyphen, decide_eq_true_eq] at h
  exact char_eq_of_toNat_eq (by rw [h]; rfl)

theorem squashRuns_mem (p : Char → Bool) (rep : List Char) :
    ∀ (l : List Char) (flag : Bool) (c : Char),
      c ∈ squashRuns p rep flag l → c ∈ rep ∨ c ∈ l := by
  intro l
  induction l with
  | nil => intro flag c h; simp [squashRuns] at h
  | cons a cs ih =>
    intro flag c h
    rw [squashRuns] at h
    by_cases hp : p a = true
    · rw [if_pos hp] at h
      cases flag with
      | true =>
        simp only [if_pos] at h
        rcases ih true c h with h1 | h2
        · exact .inl h1
        · exact .inr (List.mem_cons_of_mem a h2)
      | false =>
        simp only [Bool.false_eq_true, if_false, List.mem_append] at h
        rcases h with h1 | h2
        · exact .inl h1
        · rcases ih true c h2 with h3 | h4
          · exact .inl h3
          · exact .inr (List.mem_cons_of_mem a h4)
    · rw [if_neg hp] at h
      rcases List.mem_cons.mp h with h1 | h2
      · exact .inr (h1 ▸ List.mem_cons_self a cs)
      · rcases ih false c h2 with h3 | h4
        · exact .inl h3
        · exact .inr (List.mem_cons_of_mem a h4)

theorem squashRuns_id (p : Char → Bool) (rep : List Char) :
    ∀ l : List Char, (∀ c ∈ l, p c = false) → squashRuns p rep false l = l := by
  intro l
  induction l with
  | nil => intro _; rfl
  | cons a cs ih =>
    intro h
    rw [squashRuns]
    rw [if_neg (by simp [h a (List.mem_cons_self a cs)])]
    rw [ih (fun c hc => h c (List.mem_cons_of_mem a hc))]

theorem noDoubleHyphen_cons (a : Char) (l : List Char) :
    noDoubleHyphen (a :: l) = (!(isHyphen a && headIsHyphen l) && noDoubleHyphen l) := by
  cases l with
  | nil => simp [noDoubleHyphen, headIsHyphen]
  | cons d ds => simp [noDoubleHyphen, headIsHyphen]

theorem squashHyphen_noDH :
    ∀ l : List Char,
      noDoubleHyphen (squashRuns isHyphen ['-'] false l) = true ∧
      noDoubleHyphen (squashRuns isHyphen ['-'] true l) = true ∧
      headIsHyphen (squashRuns isHyphen ['-'] true l) = false := by
  intro l
  induction l with
  | nil => exact ⟨rfl, rfl, rfl⟩
  | cons a cs ih =>
    rcases ih with ⟨ih1, ih2, ih3⟩
    by_cases hp : isHyphen a = true
    · refine ⟨?_, ?_, ?_⟩
      · rw [squashRuns, if_pos hp]
        simp only [Bool.false_eq_true, if_false, List.singleton_append]
        rw [noDoubleHyphen_cons, ih3, ih2]
        rfl
      · rw [squashRuns, if_pos hp, if_pos rfl]
        exact ih2
      · rw [squashRuns, if_pos hp, if_pos rfl]
        exact ih3
    · have hfix : ∀ flag : Bool, squashRuns isHyphen ['-'] flag (a :: cs) =
          a :: squashRuns isHyphen ['-'] false cs := by
        intro flag
        rw [squashRuns, if_neg hp]
      refine ⟨?_, ?_, ?_⟩
      · rw [hfix false, noDoubleHyphen_cons]
        simp only [Bool.not_eq_true'] at hp
        simp [hp, ih1]
      · rw [hfix true, noDoubleHyphen_cons]
        simp only [Bool.not_eq_true'] at hp
        simp [hp, ih1]
      · rw [hfix true]
        simp only [Bool.not_eq_true'] at hp
        simp [headIsHyphen, hp]

theorem squashHyphen_id :
    ∀ l : List Char, noDoubleHyphen l = true →
      squashRuns isHyphen ['-'] false l = l ∧
      (headIsHyphen l = false → squashRuns isHyphen ['-'] true l = l) := by
  intro l
  induction l with
  | nil => intro _; exact ⟨rfl, fun _ => rfl⟩
  | cons a cs ih =>
    intro h
    rw [noDoubleHyphen_cons] at h
    simp only [Bool.and_eq_true, Bool.not_eq_true', Bool.and_eq_false_iff] at h
    rcases h with ⟨hpair, hnd⟩
    rcases ih hnd with ⟨ih1, ih2⟩
    by_cases hp : isHyphen a = true
    · have hhead : headIsHyphen cs = false := by
        rcases hpair with h1 | h2
        · rw [hp] at h1; cases h1
        · exact h2
      constructor
      · rw [squashRuns, if_pos hp]
        simp only [Bool.false_eq_true, if_false, List.singleton_append]
        rw [ih2 hhead, isHyphen_eq a hp]
      · intro hh
        rw [headIsHyphen] at hh
        simp only [List.head?_cons] at hh
        rw [hp] at hh
        cases hh
    · constructor
      · rw [squashRuns, if_neg hp, ih1]
      · intro _
        rw [squashRuns, if_neg hp, ih1]

theorem dropWhile_headIsHyphen (l : List Char) :
    headIsHyphen (l.dropWhile isHyphen) = false := by
  induction l with
  | nil => rfl
  | cons a cs ih =>
    by_cases hp : isHyphen a = true
    · rw [List.dropWhile_cons_of_pos hp]
      exact ih
    · rw [List.dropWhile_cons_of_neg (by simp [hp])]
      simp only [Bool.not_eq_true] at hp
      simp [headIsHyphen, hp]

theorem dropWhile_mem {c : Char} {l : List Char} (h : c ∈ l.dropWhile isHyphen) :
    c ∈ l := by
  induction l with
  | nil => simp [List.dropWhile] at h
  | cons a cs ih =>
    by_cases hp : isHyphen a = true
    · rw [List.dropWhile_cons_of_pos hp] at h
      exact List.mem_cons_of_mem a (ih h)
    · rw [List.dropWhile_cons_of_neg (by simp [hp])] at h
      exact h

theorem noDH_tail {a : Char} {l : List Char} (h : noDoubleHyphen (a :: l) = true) :
    noDoubleHyphen l = true := by
  rw [noDoubleHyphen_cons] at h
  simp only [Bool.and_eq_true] at h
  exact h.2

theorem dropWhile_noDH (l : List Char) (h : noDoubleHyphen l = true) :
    noDoubleHyphen (l.dropWhile isHyphen) = true := by
  induction l with
  | nil => exact h
  | cons a cs ih =>
    by_cases hp : isHyphen a = true
    · rw [List.dropWhile_cons_of_pos hp]
      exact ih (noDH_tail h)
    · rw [List.dropWhile_cons_of_neg (by simp [hp])]
      exact h

theorem dropWhile_id (l : List Char) (h : headIsHyphen l = false) :
    l.dropWhile isHyphen = l := by
  cases l with
  | nil => rfl
  | cons a cs =>
    rw [headIsHyphen] at h
    simp only [List.head?_cons] at h
    rw [List.dropWhile_cons_of_neg (by simp [h])]

theorem dropTrailing_mem {p : Char → Bool} {c : Char} :
    ∀ {l : List Char}, c ∈ dropTrailing p l → c ∈ l := by
  intro l
  induction l with
  | nil => intro h; simp [dropTrailing] at h
  | cons a cs ih =>
    intro h
    rw [dropTrailing] at h
    rcases hd : dropTrailing p cs with _ | ⟨b, bs⟩
    · rw [hd] at h
      by_cases hp : p a = true
      · simp [hp] at h
      · simp only [hp, Bool.false_eq_true, if_false, List.mem_singleton] at h
        exact h ▸ List.mem_cons_self a cs
    · rw [hd] at h
      rcases List.mem_cons.mp h with h1 | h2
      · exact h1 ▸ List.mem_cons_self a cs
      · exact List.mem_cons_of_mem a (ih (hd ▸ h2))

theorem dropTrailing_lastIsHyphen :
    ∀ l : List Char, lastIsHyphen (dropTrailing isHyphen l) = false := by
  intro l
  induction l with
  | nil => rfl
  | cons a cs ih =>
    rw [dropTrailing]
    rcases hd : dropTrailing isHyphen cs with _ | ⟨b, bs⟩
    · by_cases hp : isHyphen a = true
      · simp [hp, lastIsHyphen]
      · simp only [hp, Bool.false_eq_true, if_false]
        simp only [Bool.not_eq_true] at hp
        simp [lastIsHyphen, hp]
    · rw [hd] at ih
      rw [lastIsHyphen] at ih ⊢
      rwa [List.getLast?_cons_cons]

theorem dropTrailing_head {p : Char → Bool} {c : Char} :
    ∀ {l : List Char}, (dropTrailing p l).head? = some c → l.head? = some c := by
  intro l
  induction l with
  | nil => intro h; simp [dropTrailing] at h
  | cons a cs _ =>
    intro h
    rw [dropTrailing] at h
    rcases hd : dropTrailing p cs with _ | ⟨b, bs⟩
    · rw [hd] at h
      by_cases hp : p a = true
      · simp [hp] at h
      · simp only [hp, Bool.false_eq_true, if_false, List.head?_cons,
          Option.some.injEq] at h
        simp [h]
    · rw [hd] at h
      simp only [List.head?_cons, Option.some.injEq] at h
      simp [h]

theorem dropTrailing_headIsHyphen (l : List Char) (h : headIsHyphen l = false) :
    headIsHyphen (dropTrailing isHyphen l) = false := by
  rcases hd : (dropTrailing isHyphen l).head? with _ | c
  · simp [headIsHyphen, hd]
  · have := dropTrailing_head hd
    rw [headIsHyphen] at h ⊢
    rw [hd]
    rw [this] at h
    exact h

theorem dropTrailing_noDH :
    ∀ l : List Char, noDoubleHyphen l = true →
      noDoubleHyphen (dropTrailing isHyphen l) = true := by
  intro l
  induction l with
  | nil => intro h; exact h
  | cons a cs ih =>
    intro h
    rw [dropTrailing]
    rcases hd : dropTrailing isHyphen cs with _ | ⟨b, bs⟩
    · by_cases hp : isHyphen a = true
      · simp [hp, noDoubleHyphen]
      · simp [hp, noDoubleHyphen]
    · rw [noDoubleHyphen_cons]
      have hnd : noDoubleHyphen (b :: bs) = true := by
        rw [← hd]
        exact ih (noDH_tail h)
      have hhead : cs.head? = some b := dropTrailing_head (by rw [hd]; rfl)
      rw [noDoubleHyphen_cons] at h
      simp only [Bool.and_eq_true] at h ⊢
      refine ⟨?_, hnd⟩
      rcases h with ⟨hpair, _⟩
      rw [headIsHyphen] at hpair
      rw [hhead] at hpair
      simp only [headIsHyphen, List.head?_cons]
      exact hpair

theorem dropTrailing_id :
    ∀ l : List Char, lastIsHyphen l = false → dropTrailing isHyphen l = l := by
  intro l
  induction l with
  | nil => intro _; rfl
  | cons a cs ih =>
    intro h
    rw [dropTrailing]
    cases cs with
    | nil =>
      rw [lastIsHyphen] at h
      simp only [List.getLast?_singleton] at h
      simp [dropTrailing, h]
    | cons b bs =>
      have hlast : lastIsHyphen (b :: bs) = false := by
        rw [lastIsHyphen] at h ⊢
        rwa [List.getLast?_cons_cons] at h
      rw [ih hlast]

theorem map_jsToLower_id (l : List Char) (h : ∀ c ∈ l, isUpperAscii c = false) :
    l.map jsToLower = l := by
  induction l with
  | nil => rfl
  | cons a cs ih =>
    rw [List.map_cons, jsToLower_fix a (h a (List.mem_cons_self a cs)),
      ih (fun c hc => h c (List.mem_cons_of_mem a hc))]

/-- The slugify pipeline lands in the slug image. -/
theorem slugifyL_isSlug (l : List Char) : isSlugList (slugifyL l) = true := by
  simp only [slugifyL]
  set s1 := l.map jsToLower with hs1
  set s2 := squashRuns isJsSpace ['-'] false s1 with hs2
  set s3 := s2.filter (fun c => isWordChar c || isHyphen c) with hs3
  set s4 := squashRuns isHyphen ['-'] false s3 with hs4
  set s5 := s4.dropWhile isHyphen with hs5
  have hchars : ∀ c ∈ dropTrailing isHyphen s5, isSlugChar c = true := by
    intro c hc
    have hc5 : c ∈ s5 := dropTrailing_mem hc
    have hc4 : c ∈ s4 := dropWhile_mem hc5
    rcases squashRuns_mem isHyphen ['-'] s3 false c hc4 with h1 | h2
    · simp only [List.mem_singleton] at h1
      subst h1
      decide
    · rw [hs3, List.mem_filter] at h2
      rcases h2 with ⟨h2mem, h2keep⟩
      by_cases hh : isHyphen c = true
      · simp [isSlugChar, hh]
      · have hword : isWordChar c = true := by
          simp only [Bool.or_eq_true] at h2keep
          tauto
        have hupper : isUpperAscii c = false := by
          rcases squashRuns_mem isJsSpace ['-'] s1 false c h2mem with h3 | h4
          · simp only [List.mem_singleton] at h3
            subst h3
            decide
          · rw [hs1] at h4
            rcases List.mem_map.mp h4 with ⟨c0, _, hc0⟩
            rw [← hc0]
            exact jsToLower_not_upper c0
        simp [isSlugChar, hword, hupper]
  have hnd : noDoubleHyphen (dropTrailing isHyphen s5) = true :=
    dropTrailing_noDH s5 (dropWhile_noDH s4 (squashHyphen_noDH s3).1)
  have hhead : headIsHyphen (dropTrailing isHyphen s5) = false :=
    dropTrailing_headIsHyphen s5 (dropWhile_headIsHyphen s4)
  have hlast : lastIsHyphen (dropTrailing isHyphen s5) = false :=
    dropTrailing_lastIsHyphen s5
  rw [isSlugList]
  rw [List.all_eq_true.mpr (fun c hc => hchars c hc), hnd, hhead, hlast]
  rfl

/-- Slug-image lists are fixed points of the pipeline. -/
theorem slugifyL_fixed (l : List Char) (h : isSlugList l = true) : slugifyL l = l := by
  rw [isSlugList] at h
  simp only [Bool.and_eq_true, Bool.not_eq_true', List.all_eq_true] at h
  rcases h with ⟨⟨⟨hall, hnd⟩, hhead⟩, hlast⟩
  simp only [slugifyL]
  rw [map_jsToLower_id l (fun c hc => isSlugChar_not_upper c (hall c hc))]
  rw [squashRuns_id isJsSpace ['-'] l (fun c hc => isSlugChar_not_space c (hall c hc))]
  rw [List.filter_eq_self.mpr (fun c hc => isSlugChar_keep c (hall c hc))]
  rw [(squashHyphen_id l hnd).1]
  rw [dropWhile_id l hhead]
  exact dropTrailing_id l hlast

/-- C9: slugify is idempotent — for every input string `s`,
`slugify (slugify s) = slugify s` — and the spec's examples hold:
`slugify "My Cool App!!" = "my-cool-app"` and
`slugify "  --Foo--  " = "foo"`. -/
theorem slugify_idempotent :
    (∀ s : String, slugify (slugify s) = slugify s) ∧
    slugify "My Cool App!!" = "my-cool-app" ∧
    slugify "  --Foo--  " = "foo" := by
  refine ⟨?_, by decide, by decide⟩
  intro s
  unfold slugify
  congr 1
  exact slugifyL_fixed _ (slugifyL_isSlug s.data)

/-! ## Theorems about getAppDirectoryPath on trees (claim C2) -/

theorem stackDesc_single (sp : Path) (children : List FSEntry) :
    stackDesc [(sp, children)] = appDescL sp children := by
  simp [stackDesc]

theorem getAppDirectoryPath_eq_head (sp : Path) (children : List FSEntry) :
    getAppDirectoryPath sp children = (lifoAppOrder [(sp, children)]).head? := by
  rw [getAppDirectoryPath]
  apply getAppLoopFuel_eq_head
  show stackWeight [(sp, children)] < 2 + listWeight children
  simp only [stackWeight, List.foldr]
  omega

/-- C2 (amended: candidates are the proper descendants — depth ≥ 1 — of
the start directory; the traversal readdirs the start directory and never
examines its own name): if the tree has no `"app"` descendant the
traversal returns the not-found signal; if it has exactly one, the
traversal returns its path; in general the result is the first candidate
in the LIFO work-list discovery order, and any returned path is a
candidate. -/
theorem getAppDirectoryPath_spec (startPath : Path) (children : List FSEntry) :
    (getAppDirectoryPath startPath children = none ↔ appDescL startPath children = []) ∧
    (∀ p, appDescL startPath children = [p] →
      getAppDirectoryPath startPath children = some p) ∧
    (getAppDirectoryPath startPath children =
      (lifoAppOrder [(startPath, children)]).head?) ∧
    (∀ p, getAppDirectoryPath startPath children = some p →
      p ∈ appDescL startPath children) := by
  have hhead := getAppDirectoryPath_eq_head startPath children
  have hmem : ∀ p, getAppDirectoryPath startPath children = some p →
      p ∈ appDescL startPath children := by
    intro p hp
    rw [hhead] at hp
    have hin : p ∈ lifoAppOrder [(startPath, children)] := by
      rcases hL : lifoAppOrder [(startPath, children)] with _ | ⟨q, qs⟩
      · rw [hL] at hp; cases hp
      · rw [hL] at hp
        simp only [List.head?_cons, Option.some.injEq] at hp
        simp_all
    have := lifoAppOrder_subset [(startPath, children)] p hin
    rwa [stackDesc_single] at this
  have hnone : getAppDirectoryPath startPath children = none ↔
      appDescL startPath children = [] := by
    constructor
    · intro h
      rw [hhead] at h
      have hL : lifoAppOrder [(startPath, children)] = [] :=
        List.head?_eq_none_iff.mp h
      have := lifoAppOrder_nil [(startPath, children)] hL
      rwa [stackDesc_single] at this
    · intro h
      rcases hres : getAppDirectoryPath startPath children with _ | p
      · rfl
      · have := hmem p hres
        rw [h] at this
        cases this
  refine ⟨hnone, ?_, hhead, hmem⟩
  intro p hp
  rcases hres : getAppDirectoryPath startPath children with _ | q
  · rw [hnone.mp hres] at hp
    cases hp
  · have := hmem q hres
    rw [hp] at this
    simp only [List.mem_singleton] at this
    rw [this]

/-- C2 counterexample to the claim as stated (depth ≥ 0): a start
directory that is itself named `"app"` and has no children is the unique
candidate at depth ≥ 0, yet `getAppDirectoryPath` returns the not-found
signal (`null`): the traversal never examines the start directory's own
name. -/
theorem getAppDirectoryPath_depth0_counterexample :
    appDirsFromDepth0 ["app"] [] = [["app"]] ∧
    getAppDirectoryPath ["app"] [] = none := by
  constructor
  · simp [appDirsFromDepth0, appDescL]
  · simp [getAppDirectoryPath, listWeight, getAppLoopFuel, pushOrFind]

/-- C2 witness: on a tree with exactly one (proper-descendant) `"app"`
directory the traversal returns its path. -/
theorem getAppDirectoryPath_spec_witness :
    getAppDirectoryPath ["p"] [.file "readme.md", .dir "src" [.dir "app" []]] =
      some ["p", "src", "app"] := by
  apply (getAppDirectoryPath_spec ["p"] [.file "readme.md", .dir "src" [.dir "app" []]]).2.1
  simp [appDescL]

/-! ## Theorems about auth-profile selection (claim C1) -/

theorem truthyLookup_iff (deps : List (String × String)) (key : String) :
    truthyLookup deps key = true ↔
      ∃ e, deps.find? (fun x => x.1 == key) = some e ∧ e.2 ≠ "" := by
  rw [truthyLookup]
  split
  next e heq =>
    simp only [bne_iff_ne, ne_eq]
    constructor
    · intro h
      exact ⟨e, heq, h⟩
    · rintro ⟨e2, heq2, hne⟩
      rw [heq] at heq2
      cases heq2
      exact hne
  next heq =>
    simp only [Bool.false_eq_true, false_iff, not_exists]
    intro e2 hcontra
    rw [heq] at hcontra
    exact absurd hcontra.1 (by simp)

/-- C1 (amended): auth-profile selection is total and pure — for every
manifest it returns exactly one of the three profiles and never fails —
but the discriminating test is JS truthiness of the looked-up version
string, not bare key membership: `"next-auth"` present *with a non-empty
version constraint* implies NextAuth (taking precedence when
`"@clerk/nextjs"` is also truthy-present), otherwise a truthy
`"@clerk/nextjs"` implies Clerk, otherwise LocalhostBypass. -/
theorem selectAuthProfile_spec (pj : PackageJson) :
    (selectAuthProfile pj = .nextAuth ∨ selectAuthProfile pj = .clerk ∨
      selectAuthProfile pj = .localhostBypass) ∧
    (hasNextAuth pj = true → selectAuthProfile pj = .nextAuth) ∧
    (hasNextAuth pj = false → hasClerk pj = true → selectAuthProfile pj = .clerk) ∧
    (hasNextAuth pj = false → hasClerk pj = false →
      selectAuthProfile pj = .localhostBypass) ∧
    (hasNextAuth pj = true ↔ ∃ deps e, pj.dependencies = some deps ∧
      deps.find? (fun x => x.1 == "next-auth") = some e ∧ e.2 ≠ "") := by
  refine ⟨?_, ?_, ?_, ?_, ?_⟩
  · rw [selectAuthProfile]
    by_cases h1 : hasNextAuth pj = true
    · simp [h1]
    · by_cases h2 : hasClerk pj = true
      · simp [h1, h2]
      · simp [h1, h2]
  · intro h; simp [selectAuthProfile, h]
  · intro h1 h2; simp [selectAuthProfile, h1, h2]
  · intro h1 h2; simp [selectAuthProfile, h1, h2]
  · rw [hasNextAuth]
    rcases pj.dependencies with _ | deps
    · simp
    · rw [truthyLookup_iff]
      constructor
      · rintro ⟨e, hf, hne⟩
        exact ⟨deps, e, rfl, hf, hne⟩
      · rintro ⟨deps2, e, hd, hf, hne⟩
        injection hd with hd2
        subst hd2
        exact ⟨e, hf, hne⟩

/-- C1 counterexample to the claim as stated: in the manifest whose
dependencies map `"next-auth"` to the version constraint `""` (valid in
npm, meaning any version), `"next-auth"` is a member of
`declaredDependencies`, yet the selection is not NextAuth — the code
branches on the JS truthiness of the version string and `""` is falsy. -/
theorem selectAuthProfile_membership_counterexample :
    depDeclared ⟨some "x", some [("next-auth", "")]⟩ "next-auth" = true ∧
    selectAuthProfile ⟨some "x", some [("next-auth", "")]⟩ = .localhostBypass := by
  decide

/-- C1 witness: the amended selection rules at concrete manifests, via
`selectAuthProfile_spec`. -/
theorem selectAuthProfile_spec_witness :
    selectAuthProfile ⟨some "a", some [("next-auth", "4.0"), ("@clerk/nextjs", "2.0")]⟩ =
      .nextAuth ∧
    selectAuthProfile ⟨some "a", some [("@clerk/nextjs", "2.0")]⟩ = .clerk ∧
    selectAuthProfile ⟨some "a", some []⟩ = .localhostBypass := by
  refine ⟨?_, ?_, ?_⟩
  · exact (selectAuthProfile_spec _).2.1 (by decide)
  · exact (selectAuthProfile_spec _).2.2.1 (by decide) (by decide)
  · exact (selectAuthProfile_spec _).2.2.2.1 (by decide) (by decide)

/-! ## Theorems about writeEnvVariables (claims C3 and C4) -/

theorem FS.lookupFile_writeFile_self (fs : FS) (p : Path) (d : FileData) :
    (fs.writeFile p d).lookupFile p = some d := by
  simp [FS.lookupFile, FS.writeFile, List.find?]

theorem splitLines_of_no_newline :
    ∀ a : List Char, ¬ '\n' ∈ a → splitLines a = [a] := by
  intro a
  induction a with
  | nil => intro _; rfl
  | cons c cs ih =>
    intro h
    have hc : ¬ c = '\n' := fun hc => h (hc ▸ List.mem_cons_self c cs)
    rw [splitLines, if_neg hc, ih (fun hm => h (List.mem_cons_of_mem c hm))]

theorem splitLines_append :
    ∀ (a t : List Char), ¬ '\n' ∈ a → splitLines (a ++ '\n' :: t) = a :: splitLines t := by
  intro a
  induction a with
  | nil =>
    intro t _
    simp only [List.nil_append]
    rw [splitLines, if_pos rfl]
  | cons c cs ih =>
    intro t h
    have hc : ¬ c = '\n' := fun hc => h (hc ▸ List.mem_cons_self c cs)
    rw [List.cons_append, splitLines, if_neg hc,
      ih t (fun hm => h (List.mem_cons_of_mem c hm))]

theorem splitLines_length :
    ∀ l : List Char, (splitLines l).length = l.count '\n' + 1 := by
  intro l
  induction l with
  | nil => rfl
  | cons c cs ih =>
    by_cases hc : c = '\n'
    · rw [splitLines, if_pos hc, hc]
      simp only [List.length_cons, ih, List.count_cons_self]
    · rw [splitLines, if_neg hc]
      rcases h : splitLines cs with _ | ⟨l0, ls⟩
      · rw [h] at ih
        simp at ih
      · rw [h] at ih
        simp only [List.length_cons] at ih ⊢
        rw [List.count_cons_of_ne (Ne.symm hc)]
        exact ih

theorem no_newline_kv (a b : String) (ha : ¬ '\n' ∈ a.data) (hb : ¬ '\n' ∈ b.data) :
    ¬ '\n' ∈ (a ++ "=" ++ b).data := by
  intro hmem
  have hd : (a ++ "=" ++ b).data = (a.data ++ ['=']) ++ b.data := rfl
  rw [hd] at hmem
  rcases List.mem_append.mp hmem with h1 | h2
  · rcases List.mem_append.mp h1 with h3 | h4
    · exact ha h3
    · simp at h4
  · exact hb h2

/-- The serialized block splits back into exactly the `KEY=value` lines,
in input order (for newline-free keys and values). -/
theorem envSerialize_lines :
    ∀ entries : List (String × String), entries ≠ [] →
      (∀ e ∈ entries, ¬ '\n' ∈ e.1.data ∧ ¬ '\n' ∈ e.2.data) →
      splitLines (envSerialize entries).data =
        entries.map (fun e => (e.1 ++ "=" ++ e.2).data) := by
  intro entries
  induction entries with
  | nil => intro h; cases h rfl
  | cons e rest ih =>
    intro _ hfree
    have he := hfree e (List.mem_cons_self e rest)
    have hline := no_newline_kv e.1 e.2 he.1 he.2
    cases rest with
    | nil =>
      simp only [envSerialize, List.map_cons, List.map_nil, joinNewline]
      rw [splitLines_of_no_newline _ hline]
    | cons r rs =>
      have hfree2 : ∀ x ∈ r :: rs, ¬ '\n' ∈ x.1.data ∧ ¬ '\n' ∈ x.2.data :=
        fun x hx => hfree x (List.mem_cons_of_mem e hx)
      have ih2 := ih (by simp) hfree2
      have hser : envSerialize (e :: r :: rs) =
          (e.1 ++ "=" ++ e.2) ++ "\n" ++ envSerialize (r :: rs) := by
        simp only [envSerialize, List.map_cons]
        rw [joinNewline]
      have hdata : ((e.1 ++ "=" ++ e.2) ++ "\n" ++ envSerialize (r :: rs)).data =
          (e.1 ++ "=" ++ e.2).data ++ '\n' :: (envSerialize (r :: rs)).data := by
        show ((e.1 ++ "=" ++ e.2).data ++ ['\n']) ++ (envSerialize (r :: rs)).data = _
        simp [List.append_assoc]
      rw [hser, hdata, splitLines_append _ _ hline, ih2]
      simp [List.map_cons]

theorem envSerialize_count (entries : List (String × String)) (hne : entries ≠ [])
    (hfree : ∀ e ∈ entries, ¬ '\n' ∈ e.1.data ∧ ¬ '\n' ∈ e.2.data) :
    (envSerialize entries).data.count '\n' = entries.length - 1 := by
  have h1 := splitLines_length (envSerialize entries).data
  rw [envSerialize_lines entries hne hfree] at h1
  simp only [List.length_map] at h1
  omega

theorem writeEnvVariablesFS_fresh (entries : List (String × String)) (projectDir : Path)
    (fs : FS) (h : fs.existsSync (projectDir ++ [".env.local"]) = false) :
    (writeEnvVariablesFS entries projectDir fs).lookupFile (projectDir ++ [".env.local"]) =
      some (.text (envSerialize entries)) := by
  rw [writeEnvVariablesFS]
  simp only [h, Bool.false_eq_true, if_false]
  exact FS.lookupFile_writeFile_self fs _ _

theorem writeEnvVariablesFS_append (entries : List (String × String)) (projectDir : Path)
    (fs : FS) (s : String)
    (h : fs.lookupFile (projectDir ++ [".env.local"]) = some (.text s)) :
    (writeEnvVariablesFS entries projectDir fs).lookupFile (projectDir ++ [".env.local"]) =
      some (.text (s ++ ("\n" ++ envSerialize entries))) := by
  rw [writeEnvVariablesFS]
  have hex : fs.existsSync (projectDir ++ [".env.local"]) = true := by
    rw [FS.existsSync, h]
    rfl
  simp only [hex, if_true]
  rw [FS.appendFile, h]
  show (fs.writeFile (projectDir ++ [".env.local"])
      (FileData.text (s ++ ("\n" ++ envSerialize entries)))).lookupFile
      (projectDir ++ [".env.local"]) = _
  exact FS.lookupFile_writeFile_self fs _ _

/-- C3 (amended: the line-count statement requires both entry lists to be
non-empty — appending an empty block still inserts a newline): for every
ordered list of entries with newline-free keys and values,
`writeEnvVariables` serialises them as newline-joined `KEY=value` lines in
input order; a first write to a fresh target creates the file with exactly
that block; a write to an existing file appends a newline followed by the
block, keeping the prior content as an unchanged prefix; and after a first
write of `n ≥ 1` entries to a fresh target and a second write of `m ≥ 1`
entries, the file has exactly `n + m` lines. -/
theorem writeEnvVariables_spec (entries : List (String × String)) (projectDir : Path)
    (fs : FS) :
    (entries ≠ [] → (∀ e ∈ entries, ¬ '\n' ∈ e.1.data ∧ ¬ '\n' ∈ e.2.data) →
      splitLines (envSerialize entries).data =
        entries.map (fun e => (e.1 ++ "=" ++ e.2).data)) ∧
    (fs.existsSync (projectDir ++ [".env.local"]) = false →
      (writeEnvVariablesFS entries projectDir fs).lookupFile
        (projectDir ++ [".env.local"]) = some (.text (envSerialize entries))) ∧
    (∀ s, fs.lookupFile (projectDir ++ [".env.local"]) = some (.text s) →
      (writeEnvVariablesFS entries projectDir fs).lookupFile
        (projectDir ++ [".env.local"]) =
        some (.text (s ++ ("\n" ++ envSerialize entries)))) ∧
    (∀ entries2 : List (String × String), entries ≠ [] → entries2 ≠ [] →
      (∀ e ∈ entries, ¬ '\n' ∈ e.1.data ∧ ¬ '\n' ∈ e.2.data) →
      (∀ e ∈ entries2, ¬ '\n' ∈ e.1.data ∧ ¬ '\n' ∈ e.2.data) →
      fs.existsSync (projectDir ++ [".env.local"]) = false →
      ∃ s, (writeEnvVariablesFS entries2 projectDir
          (writeEnvVariablesFS entries projectDir fs)).lookupFile
          (projectDir ++ [".env.local"]) = some (.text s) ∧
        lineCount s = entries.length + entries2.length) := by
  refine ⟨fun hne hfree => envSerialize_lines entries hne hfree,
    fun h => writeEnvVariablesFS_fresh entries projectDir fs h,
    fun s h => writeEnvVariablesFS_append entries projectDir fs s h, ?_⟩
  intro entries2 hne hne2 hfree hfree2 hfresh
  have h1 := writeEnvVariablesFS_fresh entries projectDir fs hfresh
  have h2 := writeEnvVariablesFS_append entries2 projectDir
    (writeEnvVariablesFS entries projectDir fs) (envSerialize entries) h1
  refine ⟨envSerialize entries ++ ("\n" ++ envSerialize entries2), h2, ?_⟩
  have hd : (envSerialize entries ++ ("\n" ++ envSerialize entries2)).data =
      (envSerialize entries).data ++ '\n' :: (envSerialize entries2).data := rfl
  rw [lineCount, hd]
  rw [List.count_append, List.count_cons_self]
  rw [envSerialize_count entries hne hfree, envSerialize_count entries2 hne2 hfree2]
  have hl1 : 1 ≤ entries.length := List.length_pos.mpr hne
  have hl2 : 1 ≤ entries2.length := List.length_pos.mpr hne2
  omega

/-- C3 counterexample to the claim as stated: a second write with an empty
entry list (`m = 0`) still appends a newline, so a fresh write of one
entry followed by a write of zero entries yields a file whose line count
is 2, not 1 + 0. -/
theorem writeEnvVariables_lineCount_counterexample :
    (writeEnvVariablesFS [] []
        (writeEnvVariablesFS [("A", "1")] [] ⟨[], []⟩)).lookupFile [".env.local"] =
      some (.text "A=1\n") ∧
    lineCount "A=1\n" = 2 := by
  constructor
  · rfl
  · decide

/-- C3 witness: the amended statement at a concrete two-write run
(2 + 1 entries), via `writeEnvVariables_spec`. -/
theorem writeEnvVariables_spec_witness :
    (writeEnvVariablesFS [("C", "3")] []
        (writeEnvVariablesFS [("A", "1"), ("B", "2")] [] ⟨[], []⟩)).lookupFile
      [".env.local"] =
      some (.text (envSerialize [("A", "1"), ("B", "2")] ++
        ("\n" ++ envSerialize [("C", "3")]))) ∧
    lineCount (envSerialize [("A", "1"), ("B", "2")] ++
      ("\n" ++ envSerialize [("C", "3")])) = 3 :=
  ⟨(writeEnvVariables_spec [("C", "3")] [] _).2.2.1
      (envSerialize [("A", "1"), ("B", "2")]) (by decide),
    by decide⟩

/-- C4 counterexample: `writeEnvVariables` is not idempotent — writing the
same single entry twice to a fresh target appends the block a second time,
so the contents after two writes differ from the contents after one. -/
theorem writeEnvVariables_not_idempotent :
    (writeEnvVariablesFS [("A", "1")] []
        (writeEnvVariablesFS [("A", "1")] [] ⟨[], []⟩)).lookupFile [".env.local"] =
      some (.text "A=1\nA=1") ∧
    (writeEnvVariablesFS [("A", "1")] [] ⟨[], []⟩).lookupFile [".env.local"] =
      some (.text "A=1") ∧
    decide (writeEnvVariablesFS [("A", "1")] []
        (writeEnvVariablesFS [("A", "1")] [] ⟨[], []⟩) =
      writeEnvVariablesFS [("A", "1")] [] ⟨[], []⟩) = false := by
  refine ⟨rfl, rfl, ?_⟩
  decide

/-- C4 (amended): the write is append-only, not idempotent: whenever the
first write leaves a text file at the target, applying the same write
again appends a newline and the serialized block once more. -/
theorem writeEnvVariables_second_write_appends (entries : List (String × String))
    (projectDir : Path) (fs : FS) (s : String)
    (h : (writeEnvVariablesFS entries projectDir fs).lookupFile
      (projectDir ++ [".env.local"]) = some (.text s)) :
    (writeEnvVariablesFS entries projectDir
        (writeEnvVariablesFS entries projectDir fs)).lookupFile
      (projectDir ++ [".env.local"]) =
      some (.text (s ++ ("\n" ++ envSerialize entries))) :=
  writeEnvVariablesFS_append entries projectDir _ s h

/-- C4 witness: the amended statement at a concrete input, via
`writeEnvVariables_second_write_appends`. -/
theorem writeEnvVariables_second_write_appends_witness :
    (writeEnvVariablesFS [("A", "1")] []
        (writeEnvVariablesFS [("A", "1")] [] ⟨[], []⟩)).lookupFile [".env.local"] =
      some (.text ("A=1" ++ ("\n" ++ envSerialize [("A", "1")]))) :=
  writeEnvVariables_second_write_appends [("A", "1")] [] ⟨[], []⟩ "A=1" (by decide)

/-! ## Theorems about getAvailablePort (claim C8) -/

theorem find_shift_le {free : Nat → Bool} {start : Nat}
    (h : ∃ k, free (start + k) = true) (h1 : ∃ k, free (start + 1 + k) = true)
    (hf : ¬ free start = true) : Nat.find h1 + 1 ≤ Nat.find h := by
  have hspec := Nat.find_spec h
  have hpos : 0 < Nat.find h := by
    rcases Nat.eq_zero_or_pos (Nat.find h) with h0 | h0
    · rw [h0, Nat.add_zero] at hspec
      exact absurd hspec hf
    · exact h0
  have hfree1 : free (start + 1 + (Nat.find h - 1)) = true := by
    have heq : start + 1 + (Nat.find h - 1) = start + Nat.find h := by omega
    rw [heq]
    exact hspec
  have := @Nat.find_le _ _ _ h1 hfree1
  omega

theorem getAvailablePort_spec_aux :
    ∀ (n : Nat) (free : Nat → Bool) (start : Nat) (h : ∃ k, free (start + k) = true),
      Nat.find h ≤ n →
      free (getAvailablePort free start h) = true ∧
      start ≤ getAvailablePort free start h ∧
      (∀ q, start ≤ q → q < getAvailablePort free start h → free q = false) := by
  intro n
  induction n with
  | zero =>
    intro free start h hle
    have hspec := Nat.find_spec h
    have h0 : Nat.find h = 0 := Nat.le_zero.mp hle
    rw [h0, Nat.add_zero] at hspec
    rw [getAvailablePort, dif_pos hspec]
    exact ⟨hspec, Nat.le_refl start, fun q hq1 hq2 => absurd hq1 (by omega)⟩
  | succ n ih =>
    intro free start h hle
    by_cases hf : free start = true
    · rw [getAvailablePort, dif_pos hf]
      exact ⟨hf, Nat.le_refl start, fun q hq1 hq2 => absurd hq1 (by omega)⟩
    · have hshift : ∃ k, free (start + 1 + k) = true := by
        rcases h with ⟨k, hk⟩
        cases k with
        | zero => exact absurd hk hf
        | succ k =>
          refine ⟨k, ?_⟩
          have heq : start + 1 + k = start + (k + 1) := by omega
          rw [heq]
          exact hk
      rw [getAvailablePort, dif_neg hf]
      have hfind : Nat.find hshift ≤ n := by
        have := find_shift_le h hshift hf
        omega
      have hres := ih free (start + 1) hshift hfind
      refine ⟨hres.1, by have := hres.2.1; omega, ?_⟩
      intro q hq1 hq2
      rcases Nat.eq_or_lt_of_le hq1 with heq | hlt
      · rw [← heq]
        simpa using hf
      · exact hres.2.2 q (by omega) hq2

/-- C8 (with the termination hypothesis the code leaves implicit — some
port at or above the start is free; otherwise the recursion never
returns): `getAvailablePort` returns the lowest free port at or above
`startPort`, via sequential bind attempts; a free start port is returned
unchanged, an occupied one forces a strictly greater result. -/
theorem getAvailablePort_spec (free : Nat → Bool) (startPort : Nat)
    (h : ∃ k, free (startPort + k) = true) :
    free (getAvailablePort free startPort h) = true ∧
    startPort ≤ getAvailablePort free startPort h ∧
    (∀ q, startPort ≤ q → q < getAvailablePort free startPort h → free q = false) ∧
    (free startPort = true → getAvailablePort free startPort h = startPort) ∧
    (free startPort = false → startPort < getAvailablePort free startPort h) := by
  have haux := getAvailablePort_spec_aux (Nat.find h) free startPort h (Nat.le_refl _)
  refine ⟨haux.1, haux.2.1, haux.2.2, ?_, ?_⟩
  · intro hf
    rw [getAvailablePort, dif_pos hf]
  · intro hf
    rcases Nat.eq_or_lt_of_le haux.2.1 with heq | hlt
    · exfalso
      have := haux.1
      rw [← heq, hf] at this
      cases this
    · exact hlt

/-- C8 witness: with only port 3001 free, probing from 3000 returns the
strictly greater 3001; with every port free, probing from 3000 returns
exactly 3000 — both via `getAvailablePort_spec`. -/
theorem getAvailablePort_spec_witness :
    3000 < getAvailablePort (fun p => decide (p = 3001)) 3000 ⟨1, by decide⟩ ∧
    getAvailablePort (fun p => decide (p = 3001)) 3000 ⟨1, by decide⟩ = 3001 ∧
    getAvailablePort (fun _ => true) 3000 ⟨0, rfl⟩ = 3000 := by
  have h := getAvailablePort_spec (fun p => decide (p = 3001)) 3000 ⟨1, by decide⟩
  have h2 := getAvailablePort_spec (fun _ => true) 3000 ⟨0, rfl⟩
  exact ⟨h.2.2.2.2 (by decide), of_decide_eq_true h.1, h2.2.2.2.1 rfl⟩

/-! ## Theorems about the orchestrators (claims C10, C6, C7, C5) -/

/-- C10: if the host project fails structural validation — the answered
directory is the falsy empty string, or lacks `package.json` or
`next.config.js` directly inside it, or no `app` directory is found — the
src/index.js orchestrator reports the failure and returns early with the
filesystem (and event trace) unchanged: the result world is exactly the
initial world. -/
theorem integrateBucketCMSCli_validation (inp : CliInputs) (w0 : World) (pd : Path) :
    (inp.projectDir = none → integrateBucketCMSCli inp w0 = (w0, .notNextProject)) ∧
    (inp.projectDir = some pd → checkIsNextProject w0.fs pd = false →
      integrateBucketCMSCli inp w0 = (w0, .notNextProject)) ∧
    (inp.projectDir = some pd → checkIsNextProject w0.fs pd = true →
      getAppDirectoryPathFS w0.fs pd = none →
      integrateBucketCMSCli inp w0 = (w0, .appDirNotFound)) ∧
    (∀ appDir, inp.projectDir = some pd → checkIsNextProject w0.fs pd = true →
      getAppDirectoryPathFS w0.fs pd = some appDir →
      w0.fs.existsSync appDir = false →
      integrateBucketCMSCli inp w0 = (w0, .appDirNotFound)) := by
  refine ⟨?_, ?_, ?_, ?_⟩
  · intro h
    simp [integrateBucketCMSCli, h]
  · intro h hc
    simp [integrateBucketCMSCli, h, hc]
  · intro h hc happ
    simp [integrateBucketCMSCli, h, hc, happ]
  · intro appDir h hc happ hex
    simp [integrateBucketCMSCli, h, hc, happ, hex]

/-- C10 witness: a host directory with no `package.json` fails validation
and the run leaves the (empty) filesystem untouched, via
`integrateBucketCMSCli_validation`. -/
theorem integrateBucketCMSCli_validation_witness :
    integrateBucketCMSCli cliFailInputs emptyWorld = (emptyWorld, .notNextProject) :=
  (integrateBucketCMSCli_validation cliFailInputs emptyWorld ["host"]).2.1 rfl (by decide)

theorem cliEnvOnward_throws (inp : CliInputs) (projectDir : Path) (w : World) :
    cliEnvOnward inp projectDir w = .error (w, .typeError) := rfl

theorem cliMain_not_ok (inp : CliInputs) (pd appDir : Path) (w0 : World) :
    ∀ w port, cliMain inp pd appDir w0 ≠ .ok (w, port) := by
  intro w port
  rw [cliMain]
  split
  · simp
  · dsimp only
    split
    · simp
    · rw [cliEnvOnward_throws]
      simp

/-- C6 (amended): in the src/index.js orchestrator, every run that reaches
the environment-variable step aborts there with a `TypeError`:
`promptForEnvVariables()` is invoked without the project directory, so
`path.join(undefined, "package.json")` throws before any answers record
exists.  Consequently `writeEnvVariables` is never invoked, the world
(filesystem and trace) is unchanged from the environment step on, the
`envVariables.length` guards are never evaluated, and no run of this
orchestrator ever completes successfully. -/
theorem cliEnvStep_aborts (inp : CliInputs) (projectDir : Path) (w : World) :
    cliEnvOnward inp projectDir w = .error (w, .typeError) ∧
    (∀ (inp2 : CliInputs) (w0 : World),
      ((integrateBucketCMSCli inp2 w0).2).isSuccess = false) := by
  refine ⟨rfl, ?_⟩
  intro inp2 w0
  rw [integrateBucketCMSCli]
  split
  · rfl
  · split
    · rfl
    · split
      · rfl
      · split
        · rfl
        · split
          · next w2 port2 heq =>
            exact absurd heq (cliMain_not_ok inp2 _ _ _ w2 port2)
          · rfl

/-- C6 counterexample to the claim as stated: the environment-variable
step never produces "a record of answers" on which a length guard could
be evaluated — the prompt itself throws a `TypeError` because
src/index.js calls `promptForEnvVariables()` with no argument. -/
theorem promptForEnvVariables_no_record :
    promptForEnvVariablesA none minimalHostFS ⟨none, none, none, none, none⟩ =
      .error .typeError := rfl

theorem World.copyW_ok_trace {w w' : World} {a b : Path} (h : w.copyW a b = .ok w') :
    w'.trace = w.trace ++ [.copyEv a b] := by
  rw [World.copyW] at h
  rcases h2 : w.fs.copyAll a b with _ | fs2
  · rw [h2] at h
    cases h
  · rw [h2] at h
    injection h with h3
    rw [← h3]

theorem World.copyW_ok_lookup {w w' : World} {a b : Path} {c : FileData}
    (h : w.copyW a b = .ok w') (hsrc : w.fs.lookupFile a = some c) :
    w'.fs.lookupFile b = some c := by
  rw [World.copyW] at h
  rw [show w.fs.copyAll a b = some (w.fs.writeFile b c) by rw [FS.copyAll, hsrc]] at h
  injection h with h3
  rw [← h3]
  exact FS.lookupFile_writeFile_self w.fs b c

theorem find?_filter_keep {α : Type} (pred keep : α → Bool) :
    ∀ l : List α, (∀ x, pred x = true → keep x = true) →
      (l.filter keep).find? pred = l.find? pred := by
  intro l hk
  induction l with
  | nil => rfl
  | cons e es ih =>
    by_cases hp : pred e = true
    · rw [List.filter_cons, hk e hp, if_pos rfl, List.find?_cons_of_pos _ hp,
        List.find?_cons_of_pos _ hp]
    · rcases hkeep : keep e with _ | _
      · rw [List.filter_cons, hkeep]
        simp only [Bool.false_eq_true, if_false]
        rw [ih, List.find?_cons_of_neg _ hp]
      · rw [List.filter_cons, hkeep, if_pos rfl, List.find?_cons_of_neg _ hp,
          List.find?_cons_of_neg _ hp, ih]

theorem FS.lookupFile_removeAll {fs : FS} {p q : Path}
    (h : p.isPrefixOf q = false) :
    (fs.removeAll p).lookupFile q = fs.lookupFile q := by
  rw [FS.removeAll, FS.lookupFile, FS.lookupFile]
  simp only []
  rw [find?_filter_keep]
  intro e he
  simp only [beq_iff_eq] at he
  rw [he, h]
  rfl

theorem path_beq_false_of_last_ne {l₁ l₂ : Path} {a b : String}
    (ha : l₁.getLast? = some a) (hb : l₂.getLast? = some b) (hne : a ≠ b) :
    (l₁ == l₂) = false := by
  apply beq_eq_false_iff_ne.mpr
  intro heq
  rw [heq, hb] at ha
  injection ha with ha2
  exact hne ha2.symm

theorem configureAuth_ok {hasNA hasCl : Bool} {tempDir apiDir : Path} {w w' : World}
    (h : configureAuth hasNA hasCl tempDir apiDir w = .ok w') :
    w'.trace = w.trace ++
      [.copyEv (authSrcPath hasNA hasCl tempDir) (targetAuthPath apiDir),
        .removeEv (tempDir ++ ["src", "app", "api", "bucket", "auth", "localhost-only"]),
        .removeEv (tempDir ++ ["src", "app", "api", "bucket", "auth", "next-auth"]),
        .removeEv (tempDir ++ ["src", "app", "api", "bucket", "auth", "clerk"])] ∧
    (∀ c, w.fs.lookupFile (authSrcPath hasNA hasCl tempDir) = some c →
      (∀ d ∈ adapterSourceDirs tempDir, d.isPrefixOf (targetAuthPath apiDir) = false) →
      w'.fs.lookupFile (targetAuthPath apiDir) = some c) := by
  have hcopied : configureAuth hasNA hasCl tempDir apiDir w =
      (match w.copyW (authSrcPath hasNA hasCl tempDir) (targetAuthPath apiDir) with
        | .error we => .error we
        | .ok w7 =>
          .ok (((w7.removeW (tempDir ++ ["src", "app", "api", "bucket", "auth",
              "localhost-only"])).removeW (tempDir ++ ["src", "app", "api", "bucket",
              "auth", "next-auth"])).removeW (tempDir ++ ["src", "app", "api", "bucket",
              "auth", "clerk"]))) := by
    cases hasNA with
    | true => rfl
    | false => cases hasCl with
      | true => rfl
      | false => rfl
  rw [hcopied] at h
  rcases hc : w.copyW (authSrcPath hasNA hasCl tempDir) (targetAuthPath apiDir)
    with we | w7
  · rw [hc] at h
    cases h
  · rw [hc] at h
    injection h with h2
    constructor
    · rw [← h2]
      simp only [World.removeW]
      rw [World.copyW_ok_trace hc]
      simp [List.append_assoc]
    · intro c hsrc hsep
      have hl : w7.fs.lookupFile (targetAuthPath apiDir) = some c :=
        World.copyW_ok_lookup hc hsrc
      rw [← h2]
      simp only [World.removeW]
      rw [FS.lookupFile_removeAll (hsep _ (by simp [adapterSourceDirs])),
        FS.lookupFile_removeAll (hsep _ (by simp [adapterSourceDirs])),
        FS.lookupFile_removeAll (hsep _ (by simp [adapterSourceDirs]))]
      exact hl

theorem isAdapterEvent_copy (t a src dst : Path) :
    isAdapterEvent t a (.copyEv src dst) = (dst == targetAuthPath a) := rfl

theorem isAdapterEvent_remove (t a p : Path) :
    isAdapterEvent t a (.removeEv p) = (adapterSourceDirs t).contains p := rfl

theorem adapterSourceDirs_not_contains (t p : Path) (a : String)
    (hp : p.getLast? = some a)
    (h1 : a ≠ "localhost-only") (h2 : a ≠ "next-auth") (h3 : a ≠ "clerk") :
    (adapterSourceDirs t).contains p = false := by
  have hlast : ∀ (s6 : String) (l : List String), l.getLast? = some s6 → a ≠ s6 →
      (p == l) = false := by
    intro s6 l hl hne
    exact path_beq_false_of_last_ne hp hl hne
  have e1 : (t ++ ["src", "app", "api", "bucket", "auth", "localhost-only"]).getLast? =
      some "localhost-only" := by
    rw [List.getLast?_append_of_ne_nil t (by simp)]
    rfl
  have e2 : (t ++ ["src", "app", "api", "bucket", "auth", "next-auth"]).getLast? =
      some "next-auth" := by
    rw [List.getLast?_append_of_ne_nil t (by simp)]
    rfl
  have e3 : (t ++ ["src", "app", "api", "bucket", "auth", "clerk"]).getLast? =
      some "clerk" := by
    rw [List.getLast?_append_of_ne_nil t (by simp)]
    rfl
  simp only [adapterSourceDirs, List.contains_cons,
    List.contains_nil, Bool.or_false]
  rw [hlast _ _ e1 h1, hlast _ _ e2 h2, hlast _ _ e3 h3]
  rfl

/-- Separation: when the located `app` directory is not inside the
temporary clone directory, none of the three adapter source directories
is an ancestor of the adapter destination. -/
theorem adapter_dirs_sep (pd appDir : Path)
    (h : (pd ++ [".bucket-cms-temp"]).isPrefixOf appDir = false) :
    ∀ d ∈ adapterSourceDirs (pd ++ [".bucket-cms-temp"]),
      d.isPrefixOf (targetAuthPath (appDir ++ ["api", "bucket"])) = false := by
  intro d hd
  have htarget : targetAuthPath (appDir ++ ["api", "bucket"]) =
      appDir ++ ["api", "bucket", "auth", "get-session-user.ts"] := by
    rw [targetAuthPath]
    simp [List.append_assoc]
  by_contra hcon
  have hpre : d <+: targetAuthPath (appDir ++ ["api", "bucket"]) := by
    rw [← List.isPrefixOf_iff_prefix]
    revert hcon
    cases d.isPrefixOf (targetAuthPath (appDir ++ ["api", "bucket"])) <;> simp
  have hdlen : d.length = (pd ++ [".bucket-cms-temp"]).length + 6 ∧
      (pd ++ [".bucket-cms-temp"]) <+: d := by
    simp only [adapterSourceDirs, List.mem_cons, List.not_mem_nil, or_false] at hd
    rcases hd with hd | hd | hd <;>
      (rw [hd]; exact ⟨by simp, List.prefix_append _ _⟩)
  have htd : (pd ++ [".bucket-cms-temp"]) <+: targetAuthPath (appDir ++ ["api", "bucket"]) :=
    hdlen.2.trans hpre
  by_cases hlen : (pd ++ [".bucket-cms-temp"]).length ≤ appDir.length
  · have happ : appDir <+: targetAuthPath (appDir ++ ["api", "bucket"]) := by
      rw [htarget]
      exact List.prefix_append _ _
    have hres := List.prefix_of_prefix_length_le htd happ hlen
    rw [← List.isPrefixOf_iff_prefix] at hres
    rw [hres] at h
    cases h
  · have hlen1 := hpre.length_le
    have hlen2 : (targetAuthPath (appDir ++ ["api", "bucket"])).length =
        appDir.length + 4 := by
      rw [htarget]
      simp
    omega

theorem targetAuthPath_getLast (apiDir : Path) :
    (targetAuthPath apiDir).getLast? = some "get-session-user.ts" := by
  rw [targetAuthPath, List.getLast?_append_of_ne_nil apiDir (by simp)]
  rfl

theorem copyBucket_not_adapter (pd appDir : Path) :
    ((pd ++ (appDir ++ ["bucket"])) == targetAuthPath (appDir ++ ["api", "bucket"])) =
      false := by
  have ha : (pd ++ (appDir ++ ["bucket"])).getLast? = some "bucket" := by
    rw [List.getLast?_append_of_ne_nil pd (by simp),
      List.getLast?_append_of_ne_nil appDir (by simp)]
    rfl
  exact path_beq_false_of_last_ne ha (targetAuthPath_getLast _) (by decide)

theorem apiDir_not_adapter (appDir : Path) :
    ((appDir ++ ["api", "bucket"]) == targetAuthPath (appDir ++ ["api", "bucket"])) =
      false := by
  have ha : (appDir ++ ["api", "bucket"]).getLast? = some "bucket" := by
    rw [List.getLast?_append_of_ne_nil appDir (by simp)]
    rfl
  exact path_beq_false_of_last_ne ha (targetAuthPath_getLast _) (by decide)

theorem logo_not_adapter (pd appDir : Path) :
    ((pd ++ ["public", "bucket-cms-logo.jpg"]) ==
      targetAuthPath (appDir ++ ["api", "bucket"])) = false := by
  have ha : (pd ++ ["public", "bucket-cms-logo.jpg"]).getLast? =
      some "bucket-cms-logo.jpg" := by
    rw [List.getLast?_append_of_ne_nil pd (by simp)]
    rfl
  exact path_beq_false_of_last_ne ha (targetAuthPath_getLast _) (by decide)

theorem tempDir_not_in_adapterDirs (pd t : Path) :
    (adapterSourceDirs t).contains (pd ++ [".bucket-cms-temp"]) = false := by
  apply adapterSourceDirs_not_contains t _ ".bucket-cms-temp" _ (by decide) (by decide)
    (by decide)
  exact List.getLast?_concat pd

theorem nextDir_not_in_adapterDirs (pd t : Path) :
    (adapterSourceDirs t).contains (pd ++ [".next"]) = false := by
  apply adapterSourceDirs_not_contains t _ ".next" _ (by decide) (by decide) (by decide)
  exact List.getLast?_concat pd

theorem adapterSourceDirs_contains_each (t : Path) :
    (adapterSourceDirs t).contains
      (t ++ ["src", "app", "api", "bucket", "auth", "localhost-only"]) = true ∧
    (adapterSourceDirs t).contains
      (t ++ ["src", "app", "api", "bucket", "auth", "next-auth"]) = true ∧
    (adapterSourceDirs t).contains
      (t ++ ["src", "app", "api", "bucket", "auth", "clerk"]) = true := by
  refine ⟨?_, ?_, ?_⟩ <;>
    simp [adapterSourceDirs, List.contains_cons]

theorem World.mkdirW_trace (w : World) (p : Path) :
    (w.mkdirW p).trace = w.trace ++ [.mkdirEv p] := rfl

theorem World.ensureDirW_trace (w : World) (p : Path) :
    (w.ensureDirW p).trace = w.trace ++ [.ensureDirEv p] := rfl

theorem World.removeW_trace (w : World) (p : Path) :
    (w.removeW p).trace = w.trace ++ [.removeEv p] := rfl

theorem World.cloneW_trace (w : World) (p : Path) (tpl : FS) :
    (w.cloneW p tpl).trace = w.trace ++ [.cloneEv p] := rfl

theorem World.writeEnvW_trace (w : World) (env : List (String × String)) (pd : Path) :
    (w.writeEnvW env pd).trace = w.trace ++ [.envWriteEv (pd ++ [".env.local"])] := rfl

theorem readme_adapter_events (inp : ReadmeInputs) (w0 : World) (pd : Path)
    (wF : World) (port : Nat)
    (hpd : inp.projectDir = some pd)
    (htr : w0.trace = [])
    (hrun : integrateBucketCMSReadme inp w0 = (wF, .success port)) :
    ∃ appDir pj,
      getAppDirectoryPathFS w0.fs pd = some appDir ∧
      readJsonManifest w0.fs (pd ++ ["package.json"]) = .ok pj ∧
      wF.trace.filter
        (isAdapterEvent (pd ++ [".bucket-cms-temp"]) (appDir ++ ["api", "bucket"])) =
        [.copyEv (authSrcPath (hasNextAuth pj) (hasClerk pj) (pd ++ [".bucket-cms-temp"]))
            (targetAuthPath (appDir ++ ["api", "bucket"])),
          .removeEv ((pd ++ [".bucket-cms-temp"]) ++
            ["src", "app", "api", "bucket", "auth", "localhost-only"]),
          .removeEv ((pd ++ [".bucket-cms-temp"]) ++
            ["src", "app", "api", "bucket", "auth", "next-auth"]),
          .removeEv ((pd ++ [".bucket-cms-temp"]) ++
            ["src", "app", "api", "bucket", "auth", "clerk"])] := by
  simp only [integrateBucketCMSReadme, hpd] at hrun
  split at hrun
  · simp at hrun
  · split at hrun
    · simp at hrun
    · next appDir hgapp =>
      split at hrun
      · simp at hrun
      · split at hrun
        · next w p2 heqMain =>
          rw [Prod.mk.injEq] at hrun
          obtain ⟨hw, _⟩ := hrun
          refine ⟨appDir, ?_⟩
          unfold readmeMain at heqMain
          split at heqMain
          · cases heqMain
          · next pj hjson =>
            refine ⟨pj, hgapp, hjson, ?_⟩
            dsimp only at heqMain
            split at heqMain
            · cases heqMain
            · next w5 hc1 =>
              split at heqMain
              · cases heqMain
              · next w6 hc2 =>
                split at heqMain
                · cases heqMain
                · next w10 hca =>
                  split at heqMain
                  · cases heqMain
                  · next w11 hc3 =>
                    split at heqMain
                    · cases heqMain
                    · next env hp5 =>
                      injection heqMain with hpair
                      rw [Prod.mk.injEq] at hpair
                      obtain ⟨hww, _⟩ := hpair
                      rw [← hw, ← hww]
                      have ht5 := World.copyW_ok_trace hc1
                      have ht6 := World.copyW_ok_trace hc2
                      have hta := (configureAuth_ok hca).1
                      have ht11 := World.copyW_ok_trace hc3
                      simp only [World.removeW_trace, World.writeEnvW_trace, ht11, hta,
                        ht6, ht5, World.ensureDirW_trace, World.cloneW_trace]
                      split
                      all_goals split
                      all_goals
                        simp only [World.removeW_trace, World.mkdirW_trace, htr,
                          List.nil_append, List.filter_append, List.filter_cons,
                          List.filter_nil, isAdapterEvent, copyBucket_not_adapter,
                          apiDir_not_adapter, logo_not_adapter,
                          tempDir_not_in_adapterDirs, nextDir_not_in_adapterDirs,
                          (adapterSourceDirs_contains_each (pd ++ [".bucket-cms-temp"])).1,
                          (adapterSourceDirs_contains_each (pd ++ [".bucket-cms-temp"])).2.1,
                          (adapterSourceDirs_contains_each (pd ++ [".bucket-cms-temp"])).2.2,
                          beq_self_eq_true, if_true, if_false, Bool.false_eq_true,
                          List.nil_append, List.append_nil, List.cons_append]
        · simp at hrun

/-- C7: in every successful run of the README orchestrator, the adapter
events are exactly: one copy (with overwrite) of the selected adapter file
to the fixed destination inside the installed api tree, followed — after
the copy, regardless of the selected profile — by the removal of all three
candidate adapter source directories; and the cleanup does not remove the
adapter already copied to its destination: after the three removals the
destination still holds the copied contents (the separation hypothesis
holds whenever the located app directory is not inside the temporary
clone, which the third conjunct proves). -/
theorem adapter_copy_before_cleanup :
    (∀ (inp : ReadmeInputs) (w0 : World) (pd : Path) (wF : World) (port : Nat),
      inp.projectDir = some pd → w0.trace = [] →
      integrateBucketCMSReadme inp w0 = (wF, .success port) →
      ∃ appDir pj,
        getAppDirectoryPathFS w0.fs pd = some appDir ∧
        readJsonManifest w0.fs (pd ++ ["package.json"]) = .ok pj ∧
        wF.trace.filter
          (isAdapterEvent (pd ++ [".bucket-cms-temp"]) (appDir ++ ["api", "bucket"])) =
          [.copyEv (authSrcPath (hasNextAuth pj) (hasClerk pj) (pd ++ [".bucket-cms-temp"]))
              (targetAuthPath (appDir ++ ["api", "bucket"])),
            .removeEv ((pd ++ [".bucket-cms-temp"]) ++
              ["src", "app", "api", "bucket", "auth", "localhost-only"]),
            .removeEv ((pd ++ [".bucket-cms-temp"]) ++
              ["src", "app", "api", "bucket", "auth", "next-auth"]),
            .removeEv ((pd ++ [".bucket-cms-temp"]) ++
              ["src", "app", "api", "bucket", "auth", "clerk"])]) ∧
    (∀ (hasNA hasCl : Bool) (tempDir apiDir : Path) (w w' : World) (c : FileData),
      configureAuth hasNA hasCl tempDir apiDir w = .ok w' →
      w.fs.lookupFile (authSrcPath hasNA hasCl tempDir) = some c →
      (∀ d ∈ adapterSourceDirs tempDir, d.isPrefixOf (targetAuthPath apiDir) = false) →
      w'.fs.lookupFile (targetAuthPath apiDir) = some c) ∧
    (∀ pd appDir : Path, (pd ++ [".bucket-cms-temp"]).isPrefixOf appDir = false →
      ∀ d ∈ adapterSourceDirs (pd ++ [".bucket-cms-temp"]),
        d.isPrefixOf (targetAuthPath (appDir ++ ["api", "bucket"])) = false) := by
  refine ⟨?_, ?_, ?_⟩
  · exact fun inp w0 pd wF port hpd htr hrun =>
      readme_adapter_events inp w0 pd wF port hpd htr hrun
  · exact fun hasNA hasCl tempDir apiDir w w' c h hsrc hsep =>
      (configureAuth_ok h).2 c hsrc hsep
  · exact adapter_dirs_sep

theorem scenario_outcome :
    integrateBucketCMSReadme scenarioInputs minimalHostWorld =
      ((integrateBucketCMSReadme scenarioInputs minimalHostWorld).1, .success 3000) := by
  have hport : getAvailablePort scenarioInputs.free 3000 scenarioInputs.hfree = 3000 := by
    rw [getAvailablePort]
    rfl
  have hout : (integrateBucketCMSReadme scenarioInputs minimalHostWorld).2 =
      .success (getAvailablePort scenarioInputs.free 3000 scenarioInputs.hfree) := rfl
  rw [← hport, ← hout]

/-- C7 witness: the adapter-event sequence of the concrete scenario run,
via `adapter_copy_before_cleanup`. -/
theorem adapter_copy_before_cleanup_witness :
    getAppDirectoryPathFS minimalHostWorld.fs [] = some ["app"] ∧
    readJsonManifest minimalHostWorld.fs ([] ++ ["package.json"]) = .ok minimalManifest ∧
    (integrateBucketCMSReadme scenarioInputs
        minimalHostWorld).1.trace.filter
      (isAdapterEvent ([] ++ [".bucket-cms-temp"]) (["app"] ++ ["api", "bucket"])) =
      [.copyEv (authSrcPath (hasNextAuth minimalManifest) (hasClerk minimalManifest)
          ([] ++ [".bucket-cms-temp"]))
          (targetAuthPath (["app"] ++ ["api", "bucket"])),
        .removeEv (([] ++ [".bucket-cms-temp"]) ++
          ["src", "app", "api", "bucket", "auth", "localhost-only"]),
        .removeEv (([] ++ [".bucket-cms-temp"]) ++
          ["src", "app", "api", "bucket", "auth", "next-auth"]),
        .removeEv (([] ++ [".bucket-cms-temp"]) ++
          ["src", "app", "api", "bucket", "auth", "clerk"])] := by
  obtain ⟨a, p, h1, h2, h3⟩ :=
    adapter_copy_before_cleanup.1 scenarioInputs minimalHostWorld []
      (integrateBucketCMSReadme scenarioInputs minimalHostWorld).1 3000 rfl rfl
      scenario_outcome
  have hg : getAppDirectoryPathFS minimalHostWorld.fs [] = some ["app"] := by rfl
  have hj : readJsonManifest minimalHostWorld.fs ([] ++ ["package.json"]) =
      .ok minimalManifest := by rfl
  have ha : a = ["app"] := by
    rw [hg] at h1
    injection h1 with h
    exact h.symm
  have hp : p = minimalManifest := by
    rw [hj] at h2
    injection h2 with h
    exact h.symm
  subst ha hp
  exact ⟨h1, h2, h3⟩

/-- C5 counterexample to the claim as stated: in the minimal scenario the
configuration file does not contain exactly four keys — the
adapter-capable orchestrator calls the five-question prompt variant, so
`OPENAI_API_KEY` follows the four AWS keys. -/
theorem scenario_four_keys_counterexample :
    decide ((match scenarioFS.lookupFile [".env.local"] with
      | some (.text s) => envKeysOf s
      | _ => []) =
      ["AWS_ACCESS_KEY_ID", "AWS_SECRET_ACCESS_KEY", "AWS_REGION",
        "AWS_S3_BUCKET_NAME"]) = false := by
  decide

/-- C5 (amended: the configuration file contains exactly the FIVE prompted
keys in prompt order — the adapter-capable orchestrator pairs with the
five-question prompt variant whose last question is `OPENAI_API_KEY`):
the minimal host-project scenario run through the README orchestrator with
all collaborators succeeding yields a configuration file with exactly the
five prompted keys in prompt order, an api/bucket directory populated with
routes, the localhost-bypass adapter at the fixed adapter path, and no
template-side adapter source directories remaining (the temporary clone is
removed entirely; note the api-route copy, which precedes the template-side
cleanup, does leave copies of the three adapter directories inside the
host's own api tree). -/
theorem scenario_run_spec :
    (match scenarioFS.lookupFile [".env.local"] with
      | some (.text s) => envKeysOf s
      | _ => []) =
      ["AWS_ACCESS_KEY_ID", "AWS_SECRET_ACCESS_KEY", "AWS_REGION",
        "AWS_S3_BUCKET_NAME", "OPENAI_API_KEY"] ∧
    scenarioFS.lookupFile ["app", "api", "bucket", "route.ts"] =
      some (.text "bucket-api") ∧
    scenarioFS.isDir ["app", "api", "bucket"] = true ∧
    scenarioFS.lookupFile ["app", "api", "bucket", "auth", "get-session-user.ts"] =
      some (.text "localhost-adapter") ∧
    scenarioFS.dirs.all (fun q => !([".bucket-cms-temp"].isPrefixOf q)) = true ∧
    scenarioFS.files.all (fun e => !([".bucket-cms-temp"].isPrefixOf e.1)) = true := by
  refine ⟨?_, ?_, ?_, ?_, ?_, ?_⟩ <;> decide

end CreateBucketCMS
